import Mathlib

/-!
# Verification of the `gen::CHashTable` hash table

Shallow embedding of the hash table in `Source/Common/CHashTable.h` and the
two hash functions in `Source/Common/CHashTable.cpp`.

Modelling conventions:

* `TUInt32` values are embedded as `Nat`; wherever 32-bit wraparound matters
  (the hash functions), the result is reduced modulo `2^32` explicitly.
* A key is hashed through its raw bytes (`reinterpret_cast<const TUInt8*>`);
  the embedding abstracts `hashFunction(keyBytes(k), sizeof(K))` as a single
  function `K → Nat` stored in the table, and provides the concrete
  composition with the real hash functions for 4-byte little-endian integer
  keys (the x86 layout the code runs on).
* `m_kfMaxLoadFactor` is a C `float`; the embedding carries it as an exact
  rational `lfNum / lfDen` and the load check
  `m_iNumEntries > m_iSize * m_kfMaxLoadFactor` becomes the exact integer
  comparison `m_iNumEntries * lfDen > m_iSize * lfNum`.  For the
  configurations exercised here (load factor 0.7 at the power-of-two table
  sizes 4·2^k) the float comparison and the exact rational comparison agree:
  `0.7f = 11744051/2^24` differs from `7/10` by less than `1.2e-8`, and
  `0.7 * 4 * 2^k` always has fractional part at least `0.2`.
* The bucket array `TBucket* m_aBuckets` of length `m_iSize` is a
  `List (List (K × V))`; `m_iSize` is its length (the C++ code keeps the
  array length equal to `m_iSize` at every assignment).
* `std::list::push_back` appends, `erase` of the iterator returned by
  `FindKeyValuePair` removes the first pair with a matching key, and
  assigning through that iterator updates the first pair with a matching
  key in place.
-/

namespace Gen

/-! ## Hash functions (`CHashTable.cpp`) -/

/-- 32-bit truncation: every `TUInt32` assignment keeps the low 32 bits. -/
def u32 (n : Nat) : Nat := n % 4294967296

/-- `AddUpHash`: adds up each byte of the key into a `TUInt32` accumulator
(`iHash += pKey[iKeyIndex]`), wrapping modulo `2^32`. -/
def AddUpHash (key : List Nat) : Nat :=
  key.foldl (fun iHash b => u32 (iHash + b)) 0

/-- Loop body of `JOneAtATimeHash`:
`iHash += pKey[i]; iHash += (iHash << 10); iHash ^= (iHash >> 6);`
with all arithmetic on `TUInt32`. -/
def jStep (iHash b : Nat) : Nat :=
  let h1 := u32 (iHash + b)
  let h2 := u32 (h1 + u32 (h1 <<< 10))
  h2 ^^^ (h2 >>> 6)

/-- Finalisation of `JOneAtATimeHash`:
`iHash += (iHash << 3); iHash ^= (iHash >> 11); iHash += (iHash << 15);`. -/
def jFinal (iHash : Nat) : Nat :=
  let h1 := u32 (iHash + u32 (iHash <<< 3))
  let h2 := h1 ^^^ (h1 >>> 11)
  u32 (h2 + u32 (h2 <<< 15))

/-- `JOneAtATimeHash`: Jenkins one-at-a-time hash over the key bytes. -/
def JOneAtATimeHash (key : List Nat) : Nat :=
  jFinal (key.foldl jStep 0)

/-- The raw bytes of a 4-byte unsigned integer key, little-endian (x86
layout), as seen by `reinterpret_cast<const TUInt8*>(&key)` with
`sizeof(TKeyType) = 4`. -/
def bytes4 (n : Nat) : List Nat :=
  [n % 256, n / 256 % 256, n / 65536 % 256, n / 16777216 % 256]

/-! ## The table (`CHashTable.h`) -/

/-- Shallow embedding of `gen::CHashTable<TKeyType, TValueType>`.
`m_aBuckets` is the bucket array (`m_iSize = m_aBuckets.length`),
`m_kpfHashFunction` abstracts `hashFn(keyBytes k, sizeof K)`, and the
`float` member `m_kfMaxLoadFactor` is carried as the exact rational
`lfNum / lfDen`. -/
structure CHashTable (K V : Type) where
  m_aBuckets : List (List (K × V))
  m_iNumEntries : Nat
  m_kpfHashFunction : K → Nat
  lfNum : Nat
  lfDen : Nat

variable {K V : Type}

namespace CHashTable

/-- `m_iSize`: the number of buckets.  The C++ code stores it in a separate
field that equals the allocated array length after every assignment. -/
def size (t : CHashTable K V) : Nat := t.m_aBuckets.length

/-- The constructor: `m_iSize = iInitialSize`, a fresh array of empty
buckets, `m_iNumEntries = 0`. -/
def create (iInitialSize : Nat) (hf : K → Nat) (lfNum lfDen : Nat) :
    CHashTable K V :=
  ⟨List.replicate iInitialSize [], 0, hf, lfNum, lfDen⟩

/-- Bucket `i` of the table (`m_aBuckets[i]`). -/
def bucketAt (t : CHashTable K V) (i : Nat) : List (K × V) :=
  t.m_aBuckets.getD i []

/-- `FindBucket`: hash the key's bytes and reduce modulo `m_iSize`. -/
def FindBucket (t : CHashTable K V) (key : K) : Nat :=
  t.m_kpfHashFunction key % t.size

/-- `FindKeyValuePair`: walk the bucket's pair list and return the first
pair whose key compares equal (`key == itKeyValuePair->key`), as an
`Option` in place of the end-of-list iterator. -/
def FindKeyValuePair [DecidableEq K] (key : K) :
    List (K × V) → Option (K × V)
  | [] => none
  | p :: rest => if p.1 = key then some p else FindKeyValuePair key rest

/-- In-place update through the iterator returned by `FindKeyValuePair`:
replace the value of the first pair whose key matches
(`itKeyValuePair->value = value`). -/
def updateValue [DecidableEq K] (key : K) (v : V) :
    List (K × V) → List (K × V)
  | [] => []
  | p :: rest =>
      if p.1 = key then (p.1, v) :: rest else p :: updateValue key v rest

/-- `m_aBuckets[iBucket].erase(itKeyValuePair)`: remove the first pair whose
key matches. -/
def eraseKey [DecidableEq K] (key : K) : List (K × V) → List (K × V)
  | [] => []
  | p :: rest => if p.1 = key then rest else p :: eraseKey key rest

/-- `LookUpKey`, result as an `Option`: the C++ function returns a `bool`
and copies the value into `*pValue` only when the key is found. -/
def LookUpKey [DecidableEq K] (t : CHashTable K V) (key : K) : Option V :=
  match FindKeyValuePair key (t.bucketAt (t.FindBucket key)) with
  | none => none
  | some p => some p.2

/-- `LookUpKey` with the out-parameter made explicit: given the prior
contents of the caller's `*pValue` slot, return the `bool` result, the
table (the function takes the table by reference and performs no write to
it), and the final contents of the slot.  Mirrors the C++ body statement
by statement. -/
def LookUpKeyFull [DecidableEq K] (t : CHashTable K V) (key : K)
    (slot : V) : Bool × CHashTable K V × V :=
  match FindKeyValuePair key (t.bucketAt (t.FindBucket key)) with
  | none => (false, t, slot)
  | some p => (true, t, p.2)

/-- Auxiliary (not the source): one insertion step with the load-factor
branch elided.  `SetKeyValue` coincides with this exactly when its load
check does not fire (`setKeyValueFuel_nofire`), and `Resize`'s replay loop
coincides with folding this step exactly when no replayed insertion
re-fires the check (`replayPairs_eq_foldl`).  It is the building block of
the no-retrigger characterisation used under the load invariant
(`LoadOK`). -/
def insertPair [DecidableEq K] (t : CHashTable K V) (key : K) (v : V) :
    CHashTable K V :=
  let iBucket := t.FindBucket key
  match FindKeyValuePair key (t.bucketAt iBucket) with
  | some _ =>
      { t with m_aBuckets :=
          t.m_aBuckets.set iBucket (updateValue key v (t.bucketAt iBucket)) }
  | none =>
      { t with
          m_aBuckets :=
            t.m_aBuckets.set iBucket (t.bucketAt iBucket ++ [(key, v)]),
          m_iNumEntries := t.m_iNumEntries + 1 }

/-- Auxiliary (not the source): the table `Resize` produces when no
replayed insertion re-fires the load check — allocate `iNewSize` empty
buckets, reset `m_iNumEntries` to 0, and re-insert every pair with the
check-free step `insertPair`.  `resizeFuel_eq_resizeNR` proves the real
`Resize` equals this whenever the replayed pair count stays within the
target's threshold; outside that regime the source's `Resize` resizes
again recursively and the two differ. -/
def resizeNR [DecidableEq K] (t : CHashTable K V) (iNewSize : Nat) :
    CHashTable K V :=
  let fresh : CHashTable K V :=
    { t with m_aBuckets := List.replicate iNewSize [], m_iNumEntries := 0 }
  t.m_aBuckets.foldl
    (fun acc bucket => bucket.foldl (fun a p => insertPair a p.1 p.2) acc)
    fresh

/-- Auxiliary (not the source): `SetKeyValue` with its resize path routed
through the no-retrigger `resizeNR`.  `setKeyValue_eq_NR` proves the real
`SetKeyValue` equals this on every table satisfying the load invariant
`LoadOK` (in particular on every table operated from a constructor whose
threshold `Size * MaxLoadFactor` is at least `1/2`). -/
def setKeyValueNR [DecidableEq K] (t : CHashTable K V) (key : K) (v : V) :
    CHashTable K V :=
  let iBucket := t.FindBucket key
  match FindKeyValuePair key (t.bucketAt iBucket) with
  | some _ =>
      { t with m_aBuckets :=
          t.m_aBuckets.set iBucket (updateValue key v (t.bucketAt iBucket)) }
  | none =>
      let t2 :=
        if t.m_iNumEntries * t.lfDen > t.size * t.lfNum
        then t.resizeNR (t.size * 2) else t
      let iB := t2.FindBucket key
      { t2 with
          m_aBuckets := t2.m_aBuckets.set iB (t2.bucketAt iB ++ [(key, v)]),
          m_iNumEntries := t2.m_iNumEntries + 1 }

/-- `RemoveKey`: erase the first matching pair from its bucket and decrement
`m_iNumEntries`, returning `true`; return `false` (table untouched) when the
key is not found. -/
def RemoveKey [DecidableEq K] (t : CHashTable K V) (key : K) :
    Bool × CHashTable K V :=
  let iBucket := t.FindBucket key
  match FindKeyValuePair key (t.bucketAt iBucket) with
  | none => (false, t)
  | some _ =>
      (true,
        { t with
            m_aBuckets :=
              t.m_aBuckets.set iBucket (eraseKey key (t.bucketAt iBucket)),
            m_iNumEntries := t.m_iNumEntries - 1 })

/-- `RemoveAllKeys`: clear every bucket's pair list.  Note that the source
does *not* touch `m_iNumEntries` here. -/
def RemoveAllKeys (t : CHashTable K V) : CHashTable K V :=
  { t with m_aBuckets := t.m_aBuckets.map (fun _b => []) }

/-! ## `SetKeyValue` and `Resize`

In the source, `Resize` re-inserts every old pair by calling the full
`SetKeyValue`, whose load check can fire *during the replay* and resize
again recursively (e.g. `initialSize = 1`, `maxLoadFactor = 0.01`: the
third insert takes the table from 2 straight to 8 buckets).  The
recursion below mirrors that structure: the `fuel` argument is a totality
device only, decreasing by one at each nesting level of a replayed
`SetKeyValue` inside a resize, so that the definition is structural on
`fuel` and computable.  One nesting level at replayed pair count `C` and
target size `S'` can only occur when `(C-1) * lfDen > S' * lfNum`, and
each level doubles `S'`, so as long as `Size * lfNum ≥ 1` the depth never
exceeds `C * lfDen` (since `2^j ≥ j + 1`); the public wrappers therefore
pass `fuel = (number of stored pairs) * lfDen + 3`, which is never
exhausted on any input on which the source terminates.  On the remaining
inputs the source itself loops forever (with `lfNum = 0` and `lfDen ≥ 1`
every replay of two or more pairs re-fires the check at every size), so
no value exists to be faithful to; there the model returns its fuel-0
fallback, the unchanged table. -/

/-- `SetKeyValue`, fuel-indexed: update in place if the key exists;
otherwise check the load factor (`m_iNumEntries > m_iSize *
m_kfMaxLoadFactor`, exact rational comparison) with the count *before*
the insertion, resize to `m_iSize * 2` if it is exceeded, re-find the
bucket, append the new pair, and increment `m_iNumEntries`.  The resize
branch is the body of `Resize` written inline (allocate, reset the
counter, replay every old pair front-to-back through the full
`SetKeyValue`, load check included) at one fuel lower, so the recursion
is structural; `setKeyValueFuel_none_fire_eq` restates it through
`ResizeFuel`. -/
def SetKeyValueFuel [DecidableEq K] :
    Nat → CHashTable K V → K → V → CHashTable K V
  | 0, t, _, _ => t
  | fuel + 1, t, key, v =>
    let iBucket := t.FindBucket key
    match FindKeyValuePair key (t.bucketAt iBucket) with
    | some _ =>
        { t with m_aBuckets :=
            t.m_aBuckets.set iBucket (updateValue key v (t.bucketAt iBucket)) }
    | none =>
        let t2 :=
          if t.m_iNumEntries * t.lfDen > t.size * t.lfNum
          then t.m_aBuckets.flatten.foldl
              (fun acc p => SetKeyValueFuel fuel acc p.1 p.2)
              { t with
                  m_aBuckets := List.replicate (t.size * 2) [],
                  m_iNumEntries := 0 }
          else t
        let iB := t2.FindBucket key
        { t2 with
            m_aBuckets := t2.m_aBuckets.set iB (t2.bucketAt iB ++ [(key, v)]),
            m_iNumEntries := t2.m_iNumEntries + 1 }

/-- `Resize`, fuel-indexed: allocate `iNewSize` empty buckets, reset
`m_iNumEntries` to 0, then walk the old buckets in index order,
re-inserting each pair front-to-back through the full `SetKeyValue`
(`SetKeyValue(front.key, front.value); pop_front()`), load check
included. -/
def ResizeFuel [DecidableEq K] (fuel : Nat) (t : CHashTable K V)
    (iNewSize : Nat) : CHashTable K V :=
  t.m_aBuckets.flatten.foldl
    (fun acc p => SetKeyValueFuel fuel acc p.1 p.2)
    { t with m_aBuckets := List.replicate iNewSize [], m_iNumEntries := 0 }

/-- `SetKeyValue` of the source.  The fuel `(stored pairs) * lfDen + 3`
bounds the nested-resize depth of every terminating source execution (see
the section comment above); its resize branch runs at fuel
`(stored pairs) * lfDen + 2`, the fuel of `Resize` on the same table. -/
def SetKeyValue [DecidableEq K] (t : CHashTable K V) (key : K) (v : V) :
    CHashTable K V :=
  SetKeyValueFuel (t.m_aBuckets.flatten.length * t.lfDen + 3) t key v

/-- `Resize` of the source, with the same sufficient fuel for its
replayed insertions. -/
def Resize [DecidableEq K] (t : CHashTable K V) (iNewSize : Nat) :
    CHashTable K V :=
  ResizeFuel (t.m_aBuckets.flatten.length * t.lfDen + 2) t iNewSize

/-! ## Derived observations -/

/-- All pairs stored in the table, in bucket order. -/
def contents (t : CHashTable K V) : List (K × V) := t.m_aBuckets.flatten

/-- The keys stored in the table. -/
def keys (t : CHashTable K V) : List K := t.contents.map Prod.fst

/-- How many entries the table holds for a given key. -/
def countKey [DecidableEq K] (t : CHashTable K V) (key : K) : Nat :=
  t.keys.count key

/-- The load invariant: the stored pair count never exceeds the entry
counter, the counter is within one insertion of the threshold, and the
threshold `Size * MaxLoadFactor` is at least `1/2`.  It holds for every
table constructed with `Size * MaxLoadFactor ≥ 1/2` and is preserved by
every operation; on tables satisfying it, `SetKeyValue` provably never
re-fires the load check inside a resize replay, so it coincides with the
no-retrigger `setKeyValueNR`. -/
def LoadOK (t : CHashTable K V) : Prop :=
  t.contents.length ≤ t.m_iNumEntries ∧
  t.m_iNumEntries * t.lfDen ≤ t.size * t.lfNum + t.lfDen ∧
  t.lfDen ≤ 2 * (t.size * t.lfNum)

instance (t : CHashTable K V) : Decidable t.LoadOK :=
  inferInstanceAs (Decidable (_ ∧ _ ∧ _))

/-! ## Invariants -/

/-- Placement, bucket by bucket: every pair stored in the bucket at offset
`i` of `bs` hashes (mod `len`) to index `j + i`. -/
def PlacedFrom (hf : K → Nat) (len : Nat) : Nat → List (List (K × V)) → Prop
  | _, [] => True
  | j, b :: bs => (∀ p ∈ b, hf p.1 % len = j) ∧ PlacedFrom hf len (j + 1) bs

instance instDecidablePlacedFrom [DecidableEq K] (hf : K → Nat) (len : Nat) :
    ∀ (j : Nat) (bs : List (List (K × V))), Decidable (PlacedFrom hf len j bs)
  | _, [] => .isTrue trivial
  | j, _b :: bs =>
      have : Decidable (PlacedFrom hf len (j + 1) bs) :=
        instDecidablePlacedFrom hf len (j + 1) bs
      inferInstanceAs (Decidable (_ ∧ _))

/-- Every key present in the table lies in the bucket its hash picks modulo
the current size. -/
def Placed (t : CHashTable K V) : Prop :=
  PlacedFrom t.m_kpfHashFunction t.size 0 t.m_aBuckets

instance [DecidableEq K] (t : CHashTable K V) : Decidable t.Placed :=
  instDecidablePlacedFrom t.m_kpfHashFunction t.size 0 t.m_aBuckets

/-- Structural well-formedness of a table: at least one bucket, correct
placement of every pair, and no duplicated key. -/
def WF [DecidableEq K] (t : CHashTable K V) : Prop :=
  0 < t.size ∧ t.Placed ∧ t.keys.Nodup

instance [DecidableEq K] (t : CHashTable K V) : Decidable t.WF :=
  inferInstanceAs (Decidable (0 < t.size ∧ t.Placed ∧ t.keys.Nodup))

end CHashTable

/-! ## Operation sequences -/

/-- One mutating operation of the public interface (`LookUpKey` takes the
table by reference and performs no write, see `LookUpKeyFull`). -/
inductive TOp (K V : Type) where
  | setKV : K → V → TOp K V
  | removeK : K → TOp K V
  | removeAll : TOp K V

/-- Apply one operation to the table, discarding the `bool` result of
`RemoveKey`. -/
def applyOpNR [DecidableEq K] (t : CHashTable K V) : TOp K V → CHashTable K V
  | .setKV k v => t.setKeyValueNR k v
  | .removeK k => (t.RemoveKey k).2
  | .removeAll => t.RemoveAllKeys

/-- Run a sequence of operations left to right. -/
def runOpsNR [DecidableEq K] (t : CHashTable K V) (ops : List (TOp K V)) :
    CHashTable K V :=
  ops.foldl applyOpNR t

/-- Insert a list of key/value pairs left to right with `setKeyValueNR`. -/
def insertListNR [DecidableEq K] (l : List (K × V)) (t : CHashTable K V) :
    CHashTable K V :=
  l.foldl (fun a p => a.setKeyValueNR p.1 p.2) t

/-- Apply one operation of the public interface to the table, with the
faithful `SetKeyValue`, discarding the `bool` result of `RemoveKey`. -/
def applyOp [DecidableEq K] (t : CHashTable K V) : TOp K V → CHashTable K V
  | .setKV k v => t.SetKeyValue k v
  | .removeK k => (t.RemoveKey k).2
  | .removeAll => t.RemoveAllKeys

/-- Run a sequence of public-interface operations left to right. -/
def runOps [DecidableEq K] (t : CHashTable K V) (ops : List (TOp K V)) :
    CHashTable K V :=
  ops.foldl applyOp t

/-- Insert a list of key/value pairs left to right with the faithful
`SetKeyValue`. -/
def insertList [DecidableEq K] (l : List (K × V)) (t : CHashTable K V) :
    CHashTable K V :=
  l.foldl (fun a p => a.SetKeyValue p.1 p.2) t

/-! ## Reference hash definitions (from the specification's words)

The spec describes `AddUpHash` as the unsigned 32-bit wraparound sum of the
key bytes, and `JOneAtATimeHash` as the one-at-a-time mix written with
`+`/`<<`/`>>`/`^` on unsigned 32-bit integers.  The following definitions
transcribe those words with explicit `* 2^s`, `/ 2^s` and `% 2^32`
arithmetic, to be compared with the embeddings of the source. -/

/-- Spec's sum-of-bytes hash: `(sum of all key bytes) mod 2^32`. -/
def AddUpHash_ref (key : List Nat) : Nat := key.sum % 4294967296

/-- Spec's per-byte mixing step, written with explicit arithmetic:
add the byte, `acc += acc<<10`, `acc ^= acc>>6`, all modulo `2^32`. -/
def jStep_ref (acc b : Nat) : Nat :=
  let a1 := (acc + b) % 4294967296
  let a2 := (a1 + a1 * 1024) % 4294967296
  a2 ^^^ (a2 / 64)

/-- Spec's finalisation: `acc += acc<<3; acc ^= acc>>11; acc += acc<<15`,
all modulo `2^32`. -/
def jFinal_ref (acc : Nat) : Nat :=
  let a1 := (acc + acc * 8) % 4294967296
  let a2 := a1 ^^^ (a1 / 2048)
  (a2 + a2 * 32768 % 4294967296) % 4294967296

/-- Spec's one-at-a-time hash: fold the mixing step over the bytes, then
finalise. -/
def JOneAtATimeHash_ref (key : List Nat) : Nat :=
  jFinal_ref (key.foldl jStep_ref 0)

/-! ## Concrete instances used by the claims -/

/-- The production hash on 4-byte little-endian integer keys:
`JOneAtATimeHash(keyBytes, sizeof(TUInt32))`. -/
def hashNat : Nat → Nat := fun k => JOneAtATimeHash (bytes4 k)

/-- The basic hash on 4-byte little-endian integer keys. -/
def addHashNat : Nat → Nat := fun k => AddUpHash (bytes4 k)

open CHashTable in
/-- The spec's concrete scenario: `initialSize = 4`, load factor `0.7`,
one-at-a-time hash, keys `1..10` mapped to `key * 10`. -/
def scenarioTable : CHashTable Nat Nat :=
  (List.range 10).foldl (fun a i => a.SetKeyValue (i + 1) ((i + 1) * 10))
    (create 4 hashNat 7 10)

open CHashTable in
/-- Three distinct keys inserted into a fresh `initialSize = 4`, load factor
`0.7` table: `3 > 4 * 0.7` yet no resize has happened. -/
def boundaryTable : CHashTable Nat Nat :=
  (List.range 3).foldl (fun a i => a.SetKeyValue (i + 1) ((i + 1) * 10))
    (create 4 hashNat 7 10)

open CHashTable in
/-- `initialSize = 1`, load factor `2/5`: two fresh inserts leave
`NumEntries = 2` against `Size * MaxLoadFactor + 1 = 1.8`. -/
def smallLoadTable : CHashTable Nat Nat :=
  runOps (create 1 addHashNat 2 5) [.setKV 1 10, .setKV 2 20]

open CHashTable in
/-- A small well-formed table used to instantiate hypotheses. -/
def witnessTable : CHashTable Nat Nat :=
  (create 4 hashNat 7 10).SetKeyValue 1 11 |>.SetKeyValue 2 22

/-! ## List-level lemmas -/

theorem getD_set_self {α : Type} :
    ∀ {l : List α} {i : Nat}, i < l.length → ∀ (a d : α),
      (l.set i a).getD i d = a
  | [], i, hi, _, _ => absurd hi (by simp)
  | _ :: _, 0, _, _, _ => rfl
  | _ :: l, i + 1, hi, a, d =>
      getD_set_self (l := l) (i := i) (by simpa using hi) a d

theorem getD_set_ne {α : Type} :
    ∀ {l : List α} {i j : Nat}, j ≠ i → ∀ (a d : α),
      (l.set i a).getD j d = l.getD j d
  | [], _, _, _, _, _ => rfl
  | _ :: _, 0, 0, hne, _, _ => absurd rfl hne
  | _ :: _, 0, _ + 1, _, _, _ => rfl
  | _ :: _, _ + 1, 0, _, _, _ => rfl
  | _ :: l, i + 1, j + 1, hne, a, d =>
      getD_set_ne (l := l) (i := i) (j := j) (fun h => hne (by omega)) a d

theorem flatten_set_decomp {α : Type} {l : List (List α)} :
    ∀ {i : Nat}, i < l.length →
      ∃ pre post, l.flatten = pre ++ (l.getD i [] ++ post) ∧
        ∀ b', (l.set i b').flatten = pre ++ (b' ++ post) := by
  induction l with
  | nil => intro i hi; simp at hi
  | cons b bs ih =>
      intro i hi
      cases i with
      | zero => exact ⟨[], bs.flatten, by simp, fun b' => by simp⟩
      | succ j =>
          obtain ⟨pre, post, h1, h2⟩ := ih (i := j) (by simpa using hi)
          refine ⟨b ++ pre, post, ?_, fun b' => ?_⟩
          · simp [h1]
          · simp [h2 b']

theorem getD_map_const_nil {β : Type} {l : List (List β)} :
    ∀ {i : Nat}, (l.map (fun _b => ([] : List β))).getD i [] = [] := by
  induction l with
  | nil => intro i; rfl
  | cons b bs ih =>
      intro i
      cases i with
      | zero => rfl
      | succ j => simp

theorem flatten_map_const_nil {β : Type} {l : List (List β)} :
    (l.map (fun _b => ([] : List β))).flatten = [] := by
  induction l with
  | nil => rfl
  | cons b bs ih => simp [ih]

theorem flatten_replicate_nil {β : Type} {n : Nat} :
    (List.replicate n ([] : List β)).flatten = [] := by
  induction n with
  | zero => rfl
  | succ m ih => simp [List.replicate_succ, ih]

theorem getD_replicate_nil {β : Type} {n : Nat} :
    ∀ {i : Nat}, (List.replicate n ([] : List β)).getD i [] = [] := by
  induction n with
  | zero => intro i; rfl
  | succ m ih =>
      intro i
      cases i with
      | zero => rfl
      | succ j => simp [List.replicate_succ]

namespace CHashTable

variable {K V : Type} [DecidableEq K]

/-! ### `FindKeyValuePair`, `updateValue`, `eraseKey` -/

theorem findPair_eq_none_iff {key : K} {b : List (K × V)} :
    FindKeyValuePair key b = none ↔ ∀ p ∈ b, p.1 ≠ key := by
  induction b with
  | nil => simp [FindKeyValuePair]
  | cons p rest ih =>
      by_cases h : p.1 = key
      · simp [FindKeyValuePair, h]
      · simp only [FindKeyValuePair, if_neg h, List.forall_mem_cons, ih]
        tauto

theorem findPair_eq_none_iff_not_mem {key : K} {b : List (K × V)} :
    FindKeyValuePair key b = none ↔ key ∉ b.map Prod.fst := by
  rw [findPair_eq_none_iff]
  simp only [List.mem_map]
  constructor
  · rintro h ⟨p, hp, rfl⟩; exact h p hp rfl
  · intro h p hp hk; exact h ⟨p, hp, hk⟩

theorem findPair_eq_some {key : K} {b : List (K × V)} {p : K × V}
    (h : FindKeyValuePair key b = some p) : p ∈ b ∧ p.1 = key := by
  induction b with
  | nil => simp [FindKeyValuePair] at h
  | cons q rest ih =>
      by_cases hq : q.1 = key
      · simp only [FindKeyValuePair, if_pos hq, Option.some_inj] at h
        exact ⟨by simp [← h], h ▸ hq⟩
      · simp only [FindKeyValuePair, if_neg hq] at h
        obtain ⟨h1, h2⟩ := ih h
        exact ⟨List.mem_cons_of_mem _ h1, h2⟩

theorem findPair_of_nodup {key : K} {v : V} {b : List (K × V)}
    (hnd : (b.map Prod.fst).Nodup) (hmem : (key, v) ∈ b) :
    FindKeyValuePair key b = some (key, v) := by
  induction b with
  | nil => simp at hmem
  | cons q rest ih =>
      simp only [List.map_cons, List.nodup_cons] at hnd
      rcases List.mem_cons.1 hmem with h | h
      · rw [← h]
        simp [FindKeyValuePair]
      · have hkmem : key ∈ rest.map Prod.fst := List.mem_map.2 ⟨(key, v), h, rfl⟩
        have hq : q.1 ≠ key := fun hk => hnd.1 (hk ▸ hkmem)
        simp only [FindKeyValuePair, if_neg hq]
        exact ih hnd.2 h

theorem map_fst_updateValue {key : K} {v : V} {b : List (K × V)} :
    (updateValue key v b).map Prod.fst = b.map Prod.fst := by
  induction b with
  | nil => rfl
  | cons q rest ih =>
      by_cases h : q.1 = key
      · simp [updateValue, h]
      · simp [updateValue, h, ih]

theorem length_updateValue {key : K} {v : V} {b : List (K × V)} :
    (updateValue key v b).length = b.length := by
  induction b with
  | nil => rfl
  | cons q rest ih =>
      by_cases h : q.1 = key
      · simp [updateValue, h]
      · simp [updateValue, h, ih]

theorem mem_updateValue_self {key : K} {v : V} {b : List (K × V)}
    (h : key ∈ b.map Prod.fst) : (key, v) ∈ updateValue key v b := by
  induction b with
  | nil => simp at h
  | cons q rest ih =>
      by_cases hq : q.1 = key
      · simp [updateValue, if_pos hq, hq]
      · have : key ∈ rest.map Prod.fst := by
          rcases List.mem_map.1 h with ⟨p, hp, hk⟩
          rcases List.mem_cons.1 hp with h' | h'
          · exact absurd (h' ▸ hk) hq
          · exact List.mem_map.2 ⟨p, h', hk⟩
        simp only [updateValue, if_neg hq]
        exact List.mem_cons_of_mem _ (ih this)

theorem mem_updateValue_of_ne {key : K} {v : V} {b : List (K × V)}
    {q : K × V} (hq : q.1 ≠ key) :
    q ∈ updateValue key v b ↔ q ∈ b := by
  induction b with
  | nil => simp [updateValue]
  | cons r rest ih =>
      by_cases hr : r.1 = key
      · simp only [updateValue, if_pos hr, List.mem_cons]
        constructor
        · rintro (h | h)
          · exact absurd (h ▸ rfl : q.1 = r.1) (hr ▸ hq)
          · exact Or.inr h
        · rintro (h | h)
          · exact absurd (h ▸ hr) hq
          · exact Or.inr h
      · simp only [updateValue, if_neg hr, List.mem_cons, ih]

theorem perm_eraseKey {key : K} {b : List (K × V)} {p : K × V}
    (h : FindKeyValuePair key b = some p) :
    b.Perm (p :: eraseKey key b) := by
  induction b with
  | nil => simp [FindKeyValuePair] at h
  | cons q rest ih =>
      by_cases hq : q.1 = key
      · simp only [FindKeyValuePair, if_pos hq, Option.some_inj] at h
        rw [← h]
        simp [eraseKey, hq]
      · simp only [FindKeyValuePair, if_neg hq] at h
        have h1 := (ih h).cons q
        have h2 : List.Perm (q :: p :: eraseKey key rest)
            (p :: q :: eraseKey key rest) := List.Perm.swap p q _
        have h3 : eraseKey key (q :: rest) = q :: eraseKey key rest := by
          simp [eraseKey, hq]
        rw [h3]
        exact h1.trans h2

theorem mem_eraseKey {key : K} {b : List (K × V)} {q : K × V}
    (h : q ∈ eraseKey key b) : q ∈ b := by
  induction b with
  | nil => simp [eraseKey] at h
  | cons r rest ih =>
      by_cases hr : r.1 = key
      · simp only [eraseKey, if_pos hr] at h
        exact List.mem_cons_of_mem _ h
      · simp only [eraseKey, if_neg hr, List.mem_cons] at h
        rcases h with h | h
        · exact h ▸ List.mem_cons_self _ _
        · exact List.mem_cons_of_mem _ (ih h)

/-! ### Placement -/

omit [DecidableEq K] in
theorem placedFrom_iff {hf : K → Nat} {len : Nat} :
    ∀ {j : Nat} {bs : List (List (K × V))},
      PlacedFrom hf len j bs ↔
        ∀ i, ∀ p ∈ bs.getD i [], hf p.1 % len = j + i := by
  intro j bs
  induction bs generalizing j with
  | nil =>
      simp only [PlacedFrom, true_iff]
      intro i p hp
      simp [List.getD] at hp
  | cons b rest ih =>
      simp only [PlacedFrom, ih]
      constructor
      · rintro ⟨h0, hs⟩ i
        cases i with
        | zero => simpa using h0
        | succ m =>
            intro p hp
            have := hs m p (by simpa using hp)
            omega
      · intro h
        refine ⟨by simpa using h 0, fun i p hp => ?_⟩
        have := h (i + 1) p (by simpa using hp)
        omega

omit [DecidableEq K] in
theorem placed_iff {t : CHashTable K V} :
    t.Placed ↔
      ∀ i, ∀ p ∈ t.bucketAt i, t.m_kpfHashFunction p.1 % t.size = i := by
  unfold Placed bucketAt
  rw [placedFrom_iff]
  simp

/-! ### Contents and buckets -/

omit [DecidableEq K] in
theorem bucketAt_mem_buckets {t : CHashTable K V} {i : Nat}
    (hi : i < t.size) : t.bucketAt i ∈ t.m_aBuckets := by
  unfold bucketAt
  rw [List.getD_eq_getElem _ _ hi]
  exact List.getElem_mem hi

omit [DecidableEq K] in
theorem mem_bucketAt_contents {t : CHashTable K V} {i : Nat}
    (hi : i < t.size) {p : K × V} (hp : p ∈ t.bucketAt i) :
    p ∈ t.contents :=
  List.mem_flatten.2 ⟨t.bucketAt i, bucketAt_mem_buckets hi, hp⟩

omit [DecidableEq K] in
theorem exists_bucket_of_mem_contents {t : CHashTable K V} {p : K × V}
    (h : p ∈ t.contents) : ∃ i, i < t.size ∧ p ∈ t.bucketAt i := by
  obtain ⟨b, hb, hpb⟩ := List.mem_flatten.1 h
  obtain ⟨i, hi, hget⟩ := List.mem_iff_getElem.1 hb
  refine ⟨i, hi, ?_⟩
  unfold bucketAt
  rw [List.getD_eq_getElem _ _ hi, hget]
  exact hpb

omit [DecidableEq K] in
theorem findBucket_lt {t : CHashTable K V} (h0 : 0 < t.size) (k : K) :
    t.FindBucket k < t.size :=
  Nat.mod_lt _ h0

omit [DecidableEq K] in
theorem mem_bucket_findBucket {t : CHashTable K V} (hp : t.Placed)
    {p : K × V} (h : p ∈ t.contents) : p ∈ t.bucketAt (t.FindBucket p.1) := by
  obtain ⟨i, hi, hpb⟩ := exists_bucket_of_mem_contents h
  have := (placed_iff.1 hp) i p hpb
  unfold FindBucket
  rw [this]
  exact hpb

omit [DecidableEq K] in
theorem mem_keys_iff {t : CHashTable K V} {k : K} :
    k ∈ t.keys ↔ ∃ v, (k, v) ∈ t.contents := by
  unfold keys
  constructor
  · intro h
    obtain ⟨p, hp, hk⟩ := List.mem_map.1 h
    exact ⟨p.2, by rwa [show (k, p.2) = p from Prod.ext hk.symm rfl]⟩
  · rintro ⟨v, hv⟩
    exact List.mem_map.2 ⟨(k, v), hv, rfl⟩

omit [DecidableEq K] in
theorem bucket_map_fst_nodup {t : CHashTable K V} (hnd : t.keys.Nodup)
    {i : Nat} (hi : i < t.size) :
    ((t.bucketAt i).map Prod.fst).Nodup := by
  have hsub : List.Sublist (t.bucketAt i) t.contents :=
    List.sublist_flatten_of_mem (bucketAt_mem_buckets hi)
  exact List.Nodup.sublist (hsub.map Prod.fst) hnd

/-! ### Lookup characterisation -/

theorem findPair_bucket_eq_none_iff {t : CHashTable K V} (hwf : t.WF)
    {k : K} :
    FindKeyValuePair k (t.bucketAt (t.FindBucket k)) = none ↔ k ∉ t.keys := by
  obtain ⟨h0, hp, hnd⟩ := hwf
  rw [findPair_eq_none_iff_not_mem]
  constructor
  · intro h hk
    obtain ⟨v, hv⟩ := mem_keys_iff.1 hk
    have := mem_bucket_findBucket hp hv
    exact h (List.mem_map.2 ⟨(k, v), this, rfl⟩)
  · intro h hk
    obtain ⟨p, hpb, hpk⟩ := List.mem_map.1 hk
    have hpc := mem_bucketAt_contents (findBucket_lt h0 k) hpb
    exact h (mem_keys_iff.2 ⟨p.2, by
      rwa [show (k, p.2) = p from Prod.ext hpk.symm rfl]⟩)

theorem lookUpKey_eq_some_iff {t : CHashTable K V} (hwf : t.WF) {k : K}
    {v : V} : t.LookUpKey k = some v ↔ (k, v) ∈ t.contents := by
  obtain ⟨h0, hp, hnd⟩ := hwf
  unfold LookUpKey
  cases hfp : FindKeyValuePair k (t.bucketAt (t.FindBucket k)) with
  | none =>
      simp only [reduceCtorEq, false_iff]
      intro hmem
      have hk : k ∈ t.keys := mem_keys_iff.2 ⟨v, hmem⟩
      exact (findPair_bucket_eq_none_iff ⟨h0, hp, hnd⟩).1 hfp hk
  | some p =>
      obtain ⟨hpb, hpk⟩ := findPair_eq_some hfp
      simp only [Option.some_inj]
      constructor
      · rintro rfl
        have : p ∈ t.contents :=
          mem_bucketAt_contents (findBucket_lt h0 k) hpb
        rwa [show (k, p.2) = p from Prod.ext hpk.symm rfl]
      · intro hmem
        have hb := mem_bucket_findBucket hp hmem
        have hnodup := bucket_map_fst_nodup hnd (findBucket_lt h0 k)
        have := findPair_of_nodup hnodup hb
        rw [hfp] at this
        rw [Option.some_inj.1 this]

theorem lookUpKey_eq_none_iff {t : CHashTable K V} (hwf : t.WF) {k : K} :
    t.LookUpKey k = none ↔ k ∉ t.keys := by
  unfold LookUpKey
  cases hfp : FindKeyValuePair k (t.bucketAt (t.FindBucket k)) with
  | none => simp [← findPair_bucket_eq_none_iff hwf, hfp]
  | some p =>
      simp only [reduceCtorEq, false_iff, not_not]
      have := findPair_bucket_eq_none_iff hwf (k := k)
      rw [hfp] at this
      by_contra hk
      exact absurd (this.2 hk) (by simp)

/-! ### `insertPair` -/

omit [DecidableEq K] in
theorem bucketAt_set_self {t : CHashTable K V} {i : Nat} (hi : i < t.size)
    (b' : List (K × V)) :
    ({ t with m_aBuckets := t.m_aBuckets.set i b' } :
      CHashTable K V).bucketAt i = b' :=
  getD_set_self hi b' []

omit [DecidableEq K] in
theorem bucketAt_set_ne {t : CHashTable K V} {i j : Nat} (hne : j ≠ i)
    (b' : List (K × V)) :
    ({ t with m_aBuckets := t.m_aBuckets.set i b' } :
      CHashTable K V).bucketAt j = t.bucketAt j :=
  getD_set_ne hne b' []

theorem insertPair_size (t : CHashTable K V) (k : K) (v : V) :
    (t.insertPair k v).size = t.size := by
  unfold insertPair
  cases hfp : FindKeyValuePair k (t.bucketAt (t.FindBucket k)) <;>
    simp [hfp, size]

theorem insertPair_fields (t : CHashTable K V) (k : K) (v : V) :
    (t.insertPair k v).m_kpfHashFunction = t.m_kpfHashFunction ∧
    (t.insertPair k v).lfNum = t.lfNum ∧
    (t.insertPair k v).lfDen = t.lfDen := by
  unfold insertPair
  cases hfp : FindKeyValuePair k (t.bucketAt (t.FindBucket k)) <;>
    simp [hfp]

theorem insertPair_numEntries_le (t : CHashTable K V) (k : K) (v : V) :
    (t.insertPair k v).m_iNumEntries ≤ t.m_iNumEntries + 1 := by
  unfold insertPair
  cases hfp : FindKeyValuePair k (t.bucketAt (t.FindBucket k)) <;>
    simp [hfp]

theorem insertPair_c_le_n (t : CHashTable K V) (k : K) (v : V)
    (h : t.contents.length ≤ t.m_iNumEntries) :
    (t.insertPair k v).contents.length ≤ (t.insertPair k v).m_iNumEntries := by
  cases hfp : FindKeyValuePair k (t.bucketAt (t.FindBucket k)) with
  | some p =>
      simp only [insertPair, hfp]
      by_cases hi : t.FindBucket k < t.size
      · obtain ⟨pre, post, h1, h2⟩ := flatten_set_decomp (l := t.m_aBuckets) hi
        show (List.flatten _).length ≤ t.m_iNumEntries
        rw [h2]
        have := congrArg List.length h1
        simp only [List.length_append] at this ⊢
        rw [length_updateValue]
        unfold contents at h
        unfold bucketAt
        omega
      · rw [List.set_eq_of_length_le (Nat.le_of_not_lt hi)]
        exact h
  | none =>
      simp only [insertPair, hfp]
      by_cases hi : t.FindBucket k < t.size
      · obtain ⟨pre, post, h1, h2⟩ := flatten_set_decomp (l := t.m_aBuckets) hi
        show (List.flatten _).length ≤ t.m_iNumEntries + 1
        rw [h2]
        have := congrArg List.length h1
        simp only [List.length_append] at this ⊢
        unfold contents at h
        simp only [List.length_singleton]
        unfold bucketAt
        omega
      · rw [List.set_eq_of_length_le (Nat.le_of_not_lt hi)]
        exact Nat.le_trans h (Nat.le_succ _)

theorem insertPair_placed (t : CHashTable K V) (k : K) (v : V)
    (hp : t.Placed) : (t.insertPair k v).Placed := by
  rw [placed_iff] at hp ⊢
  cases hfp : FindKeyValuePair k (t.bucketAt (t.FindBucket k)) with
  | some p =>
      simp only [insertPair, hfp]
      intro j q hq
      by_cases hi : t.FindBucket k < t.size
      · by_cases hj : j = t.FindBucket k
        · have hq' : q ∈ (t.m_aBuckets.set (t.FindBucket k)
              (updateValue k v (t.bucketAt (t.FindBucket k)))).getD j [] := hq
          rw [hj, getD_set_self hi] at hq'
          have hq1 : q.1 ∈ (updateValue k v
              (t.bucketAt (t.FindBucket k))).map Prod.fst :=
            List.mem_map_of_mem Prod.fst hq'
          rw [map_fst_updateValue] at hq1
          obtain ⟨r, hr, hrq⟩ := List.mem_map.1 hq1
          have hpr := hp (t.FindBucket k) r hr
          show t.m_kpfHashFunction q.1 % (t.m_aBuckets.set (t.FindBucket k)
            (updateValue k v (t.bucketAt (t.FindBucket k)))).length = j
          rw [List.length_set, ← hrq, hj]
          exact hpr
        · have hq' : q ∈ (t.m_aBuckets.set (t.FindBucket k)
              (updateValue k v (t.bucketAt (t.FindBucket k)))).getD j [] := hq
          rw [getD_set_ne hj] at hq'
          show t.m_kpfHashFunction q.1 % (t.m_aBuckets.set (t.FindBucket k)
            (updateValue k v (t.bucketAt (t.FindBucket k)))).length = j
          rw [List.length_set]
          exact hp j q hq'
      · rw [List.set_eq_of_length_le (Nat.le_of_not_lt hi)] at hq ⊢
        exact hp j q hq
  | none =>
      simp only [insertPair, hfp]
      intro j q hq
      by_cases hi : t.FindBucket k < t.size
      · by_cases hj : j = t.FindBucket k
        · have hq' : q ∈ (t.m_aBuckets.set (t.FindBucket k)
              (t.bucketAt (t.FindBucket k) ++ [(k, v)])).getD j [] := hq
          rw [hj, getD_set_self hi] at hq'
          show t.m_kpfHashFunction q.1 % (t.m_aBuckets.set (t.FindBucket k)
            (t.bucketAt (t.FindBucket k) ++ [(k, v)])).length = j
          rw [List.length_set, hj]
          rcases List.mem_append.1 hq' with h | h
          · exact hp _ q h
          · have : q = (k, v) := by simpa using h
            rw [this]
            rfl
        · have hq' : q ∈ (t.m_aBuckets.set (t.FindBucket k)
              (t.bucketAt (t.FindBucket k) ++ [(k, v)])).getD j [] := hq
          rw [getD_set_ne hj] at hq'
          show t.m_kpfHashFunction q.1 % (t.m_aBuckets.set (t.FindBucket k)
            (t.bucketAt (t.FindBucket k) ++ [(k, v)])).length = j
          rw [List.length_set]
          exact hp j q hq'
      · rw [List.set_eq_of_length_le (Nat.le_of_not_lt hi)] at hq ⊢
        exact hp j q hq

theorem insertPair_absent (t : CHashTable K V) (k : K) (v : V)
    (h0 : 0 < t.size) (habs : k ∉ t.keys) :
    (t.insertPair k v).contents.Perm (t.contents ++ [(k, v)]) ∧
    (t.insertPair k v).m_iNumEntries = t.m_iNumEntries + 1 := by
  have hfp : FindKeyValuePair k (t.bucketAt (t.FindBucket k)) = none := by
    rw [findPair_eq_none_iff_not_mem]
    intro hk
    obtain ⟨p, hpb, hpk⟩ := List.mem_map.1 hk
    have hpc := mem_bucketAt_contents (findBucket_lt h0 k) hpb
    exact habs (mem_keys_iff.2 ⟨p.2, by
      rwa [show (k, p.2) = p from Prod.ext hpk.symm rfl]⟩)
  simp only [insertPair, hfp]
  obtain ⟨pre, post, h1, h2⟩ :=
    flatten_set_decomp (l := t.m_aBuckets) (findBucket_lt h0 k)
  constructor
  · show (List.flatten _).Perm _
    rw [h2]
    unfold contents
    rw [h1]
    have hmid : List.Perm ((t.bucketAt (t.FindBucket k) ++ [(k, v)]) ++ post)
        ((t.bucketAt (t.FindBucket k) ++ post) ++ [(k, v)]) := by
      rw [List.append_assoc, List.append_assoc]
      exact List.Perm.append_left _ List.perm_append_comm
    have := hmid.append_left pre
    simp only [← List.append_assoc] at this ⊢
    exact this
  · trivial

/-! ### Folding `insertPair` over a pair list (the `resizeNR` loop) -/

theorem foldl_insert_size (l : List (K × V)) (acc : CHashTable K V) :
    (l.foldl (fun a p => a.insertPair p.1 p.2) acc).size = acc.size := by
  induction l generalizing acc with
  | nil => rfl
  | cons p l ih => rw [List.foldl_cons, ih, insertPair_size]

theorem foldl_insert_fields (l : List (K × V)) (acc : CHashTable K V) :
    (l.foldl (fun a p => a.insertPair p.1 p.2) acc).m_kpfHashFunction
        = acc.m_kpfHashFunction ∧
    (l.foldl (fun a p => a.insertPair p.1 p.2) acc).lfNum = acc.lfNum ∧
    (l.foldl (fun a p => a.insertPair p.1 p.2) acc).lfDen = acc.lfDen := by
  induction l generalizing acc with
  | nil => exact ⟨rfl, rfl, rfl⟩
  | cons p l ih =>
      obtain ⟨ha, hb, hc⟩ := ih (acc.insertPair p.1 p.2)
      obtain ⟨ha', hb', hc'⟩ := insertPair_fields acc p.1 p.2
      rw [List.foldl_cons]
      exact ⟨ha.trans ha', hb.trans hb', hc.trans hc'⟩

theorem foldl_insert_numEntries_le (l : List (K × V))
    (acc : CHashTable K V) :
    (l.foldl (fun a p => a.insertPair p.1 p.2) acc).m_iNumEntries
      ≤ acc.m_iNumEntries + l.length := by
  induction l generalizing acc with
  | nil => simp
  | cons p l ih =>
      rw [List.foldl_cons]
      have h1 := ih (acc.insertPair p.1 p.2)
      have h2 := insertPair_numEntries_le acc p.1 p.2
      simp only [List.length_cons]
      omega

theorem foldl_insert_c_le_n (l : List (K × V)) (acc : CHashTable K V)
    (h : acc.contents.length ≤ acc.m_iNumEntries) :
    (l.foldl (fun a p => a.insertPair p.1 p.2) acc).contents.length
      ≤ (l.foldl (fun a p => a.insertPair p.1 p.2) acc).m_iNumEntries := by
  induction l generalizing acc with
  | nil => exact h
  | cons p l ih =>
      rw [List.foldl_cons]
      exact ih _ (insertPair_c_le_n acc p.1 p.2 h)

theorem foldl_insert_placed (l : List (K × V)) (acc : CHashTable K V)
    (hp : acc.Placed) :
    (l.foldl (fun a p => a.insertPair p.1 p.2) acc).Placed := by
  induction l generalizing acc with
  | nil => exact hp
  | cons p l ih =>
      rw [List.foldl_cons]
      exact ih _ (insertPair_placed acc p.1 p.2 hp)

theorem foldl_insert_absent (l : List (K × V)) (acc : CHashTable K V)
    (h0 : 0 < acc.size) (hdisj : ∀ p ∈ l, p.1 ∉ acc.keys)
    (hnd : (l.map Prod.fst).Nodup) :
    (l.foldl (fun a p => a.insertPair p.1 p.2) acc).contents.Perm
        (acc.contents ++ l) ∧
    (l.foldl (fun a p => a.insertPair p.1 p.2) acc).m_iNumEntries
        = acc.m_iNumEntries + l.length := by
  induction l generalizing acc with
  | nil => simp
  | cons p l ih =>
      rw [List.foldl_cons]
      have hphd : p.1 ∉ acc.keys := hdisj p (List.mem_cons_self _ _)
      obtain ⟨hperm, hn⟩ :=
        insertPair_absent acc p.1 p.2 h0 hphd
      simp only [List.map_cons, List.nodup_cons] at hnd
      have hkeysperm :
          (acc.insertPair p.1 p.2).keys.Perm (acc.keys ++ [p.1]) := by
        have := hperm.map Prod.fst
        simpa [keys, contents] using this
      have hdisj' : ∀ q ∈ l, q.1 ∉ (acc.insertPair p.1 p.2).keys := by
        intro q hq hqmem
        have := hkeysperm.mem_iff.1 hqmem
        rcases List.mem_append.1 this with h | h
        · exact hdisj q (List.mem_cons_of_mem _ hq) h
        · have : q.1 = p.1 := by simpa using h
          exact hnd.1 (this ▸ List.mem_map_of_mem Prod.fst hq)
      have h0' : 0 < (acc.insertPair p.1 p.2).size := by
        rwa [insertPair_size]
      obtain ⟨hperm', hn'⟩ := ih _ h0' hdisj' hnd.2
      constructor
      · refine hperm'.trans ?_
        have := hperm.append_right l
        refine this.trans ?_
        rw [List.append_assoc]
        simp
      · rw [hn', hn]
        simp only [List.length_cons]
        omega

/-! ### `resizeNR` -/

theorem resizeNR_eq (t : CHashTable K V) (ns : Nat) :
    t.resizeNR ns = t.contents.foldl (fun a p => a.insertPair p.1 p.2)
      { t with m_aBuckets := List.replicate ns [], m_iNumEntries := 0 } := by
  unfold resizeNR contents
  rw [List.foldl_flatten]

theorem resizeNR_size (t : CHashTable K V) (ns : Nat) :
    (t.resizeNR ns).size = ns := by
  rw [resizeNR_eq, foldl_insert_size]
  simp [size]

theorem resizeNR_fields (t : CHashTable K V) (ns : Nat) :
    (t.resizeNR ns).m_kpfHashFunction = t.m_kpfHashFunction ∧
    (t.resizeNR ns).lfNum = t.lfNum ∧ (t.resizeNR ns).lfDen = t.lfDen := by
  rw [resizeNR_eq]
  exact foldl_insert_fields _ _

theorem resizeNR_numEntries_le (t : CHashTable K V) (ns : Nat) :
    (t.resizeNR ns).m_iNumEntries ≤ t.contents.length := by
  rw [resizeNR_eq]
  have := foldl_insert_numEntries_le t.contents
    { t with m_aBuckets := List.replicate ns [], m_iNumEntries := 0 }
  simpa using this

theorem resizeNR_c_le_n (t : CHashTable K V) (ns : Nat) :
    (t.resizeNR ns).contents.length ≤ (t.resizeNR ns).m_iNumEntries := by
  rw [resizeNR_eq]
  apply foldl_insert_c_le_n
  show (List.flatten _).length ≤ 0
  rw [flatten_replicate_nil]
  simp

theorem resizeNR_placed (t : CHashTable K V) (ns : Nat) :
    (t.resizeNR ns).Placed := by
  rw [resizeNR_eq]
  apply foldl_insert_placed
  rw [placed_iff]
  intro i p hp
  have : ({ t with m_aBuckets := List.replicate ns [], m_iNumEntries := 0 } :
      CHashTable K V).bucketAt i = [] := getD_replicate_nil
  rw [this] at hp
  simp at hp

theorem resizeNR_spec (t : CHashTable K V) (ns : Nat) (hwf : t.WF)
    (hns : 0 < ns) :
    (t.resizeNR ns).contents.Perm t.contents ∧
    (t.resizeNR ns).m_iNumEntries = t.contents.length ∧
    (t.resizeNR ns).WF := by
  obtain ⟨h0, hp, hnd⟩ := hwf
  have hfold := foldl_insert_absent t.contents
    { t with m_aBuckets := List.replicate ns [], m_iNumEntries := 0 }
    (by simpa [size] using hns)
    (by
      intro p hp hmem
      obtain ⟨v, hv⟩ := mem_keys_iff.1 hmem
      unfold contents at hv
      simp only at hv
      rw [flatten_replicate_nil] at hv
      simp at hv)
    hnd
  obtain ⟨hperm, hn⟩ := hfold
  rw [← resizeNR_eq] at hperm hn
  have hfreshc :
      ({ t with m_aBuckets := List.replicate ns [], m_iNumEntries := 0 } :
        CHashTable K V).contents = [] := by
    unfold contents
    simp only
    exact flatten_replicate_nil
  rw [hfreshc] at hperm
  simp only [List.nil_append] at hperm
  refine ⟨hperm, by simpa [hfreshc] using hn, ?_⟩
  refine ⟨by rw [resizeNR_size]; exact hns, resizeNR_placed t ns, ?_⟩
  have := hperm.map Prod.fst
  exact this.nodup_iff.2 hnd

theorem resizeNR_keys_perm (t : CHashTable K V) (ns : Nat) (hwf : t.WF)
    (hns : 0 < ns) : (t.resizeNR ns).keys.Perm t.keys :=
  ((resizeNR_spec t ns hwf hns).1).map Prod.fst

/-! ### `setKeyValueNR` branch analyses -/

theorem setKeyValueNR_eq_insertPair_found {t : CHashTable K V} {k : K}
    {p : K × V}
    (hfp : FindKeyValuePair k (t.bucketAt (t.FindBucket k)) = some p)
    (v : V) : t.setKeyValueNR k v = t.insertPair k v := by
  simp only [setKeyValueNR, insertPair, hfp]

theorem setKeyValueNR_eq_insertPair_noresize {t : CHashTable K V} {k : K}
    (hfp : FindKeyValuePair k (t.bucketAt (t.FindBucket k)) = none)
    (hload : ¬ t.m_iNumEntries * t.lfDen > t.size * t.lfNum) (v : V) :
    t.setKeyValueNR k v = t.insertPair k v := by
  simp only [setKeyValueNR, insertPair, hfp, if_neg hload]

theorem setKeyValueNR_eq_insertPair_resize {t : CHashTable K V} {k : K}
    (hfp : FindKeyValuePair k (t.bucketAt (t.FindBucket k)) = none)
    (hload : t.m_iNumEntries * t.lfDen > t.size * t.lfNum)
    (hfp2 : FindKeyValuePair k ((t.resizeNR (t.size * 2)).bucketAt
      ((t.resizeNR (t.size * 2)).FindBucket k)) = none) (v : V) :
    t.setKeyValueNR k v = (t.resizeNR (t.size * 2)).insertPair k v := by
  simp only [setKeyValueNR, insertPair, hfp, hfp2, if_pos hload]

theorem insertPair_found_eq {t : CHashTable K V} {k : K} {p : K × V}
    (hfp : FindKeyValuePair k (t.bucketAt (t.FindBucket k)) = some p)
    (v : V) :
    t.insertPair k v =
      { t with
          m_aBuckets := t.m_aBuckets.set (t.FindBucket k)
            (updateValue k v (t.bucketAt (t.FindBucket k))) } := by
  simp only [insertPair, hfp]

/-- Effects of inserting a key that is already present: the found branch
updates the first matching pair in place. -/
theorem insertPair_present (t : CHashTable K V) (k : K) (v : V)
    (h0 : 0 < t.size) (hp : t.Placed) (hpres : k ∈ t.keys) :
    (t.insertPair k v).keys = t.keys ∧
    (t.insertPair k v).m_iNumEntries = t.m_iNumEntries ∧
    (k, v) ∈ (t.insertPair k v).contents ∧
    (∀ q : K × V, q.1 ≠ k →
      (q ∈ (t.insertPair k v).contents ↔ q ∈ t.contents)) ∧
    (t.insertPair k v).contents.length = t.contents.length ∧
    (t.insertPair k v).size = t.size ∧
    (t.insertPair k v).m_kpfHashFunction = t.m_kpfHashFunction ∧
    (t.insertPair k v).lfNum = t.lfNum ∧
    (t.insertPair k v).lfDen = t.lfDen := by
  obtain ⟨v0, hv0⟩ := mem_keys_iff.1 hpres
  have hb : (k, v0) ∈ t.bucketAt (t.FindBucket k) := mem_bucket_findBucket hp hv0
  have hkb : k ∈ (t.bucketAt (t.FindBucket k)).map Prod.fst :=
    List.mem_map.2 ⟨(k, v0), hb, rfl⟩
  cases hfp : FindKeyValuePair k (t.bucketAt (t.FindBucket k)) with
  | none => exact absurd (findPair_eq_none_iff_not_mem.1 hfp) (by simp [hkb])
  | some p =>
      rw [insertPair_found_eq hfp]
      obtain ⟨pre, post, h1, h2⟩ :=
        flatten_set_decomp (l := t.m_aBuckets) (findBucket_lt h0 k)
      have hc :
          ({ t with
              m_aBuckets := t.m_aBuckets.set (t.FindBucket k)
                (updateValue k v (t.bucketAt (t.FindBucket k))) } :
            CHashTable K V).contents
          = pre ++ (updateValue k v (t.bucketAt (t.FindBucket k)) ++ post) := by
        unfold contents bucketAt
        simp only
        exact h2 _
      have hco : t.contents = pre ++ (t.bucketAt (t.FindBucket k) ++ post) := by
        unfold contents bucketAt
        exact h1
      refine ⟨?_, rfl, ?_, ?_, ?_, by simp [size], rfl, rfl, rfl⟩
      · unfold keys
        rw [hc, hco]
        simp [map_fst_updateValue]
      · rw [hc]
        have : (k, v) ∈ updateValue k v (t.bucketAt (t.FindBucket k)) :=
          mem_updateValue_self hkb
        simp [this]
      · intro q hq
        rw [hc, hco]
        simp only [List.mem_append]
        rw [mem_updateValue_of_ne hq]
      · rw [hc, hco]
        simp [length_updateValue]

/-- Effects of inserting an absent key under well-formedness: both the
no-resize and the resize path append the pair, increment the count, and
preserve well-formedness. -/
theorem setKeyValueNR_absent (t : CHashTable K V) (k : K) (v : V)
    (hwf : t.WF) (habs : k ∉ t.keys) :
    (t.setKeyValueNR k v).contents.Perm (t.contents ++ [(k, v)]) ∧
    ((t.setKeyValueNR k v).size = t.size ∨
      (t.setKeyValueNR k v).size = t.size * 2) ∧
    (t.setKeyValueNR k v).Placed ∧
    (t.m_iNumEntries = t.contents.length →
      (t.setKeyValueNR k v).m_iNumEntries = t.m_iNumEntries + 1) ∧
    (t.setKeyValueNR k v).m_kpfHashFunction = t.m_kpfHashFunction ∧
    (t.setKeyValueNR k v).lfNum = t.lfNum ∧
    (t.setKeyValueNR k v).lfDen = t.lfDen := by
  obtain ⟨h0, hp, hnd⟩ := hwf
  have hfp : FindKeyValuePair k (t.bucketAt (t.FindBucket k)) = none := by
    rw [findPair_eq_none_iff_not_mem]
    intro hk
    obtain ⟨q, hqb, hqk⟩ := List.mem_map.1 hk
    have := mem_bucketAt_contents (findBucket_lt h0 k) hqb
    exact habs (mem_keys_iff.2 ⟨q.2, by
      rwa [show (k, q.2) = q from Prod.ext hqk.symm rfl]⟩)
  by_cases hload : t.m_iNumEntries * t.lfDen > t.size * t.lfNum
  · -- resize path
    set tR := t.resizeNR (t.size * 2) with htR
    obtain ⟨hRperm, hRn, hRwf⟩ :=
      resizeNR_spec t (t.size * 2) ⟨h0, hp, hnd⟩ (by omega)
    have habsR : k ∉ tR.keys := by
      intro hk
      exact habs ((resizeNR_keys_perm t (t.size * 2) ⟨h0, hp, hnd⟩
        (by omega)).mem_iff.1 hk)
    have hfp2 : FindKeyValuePair k (tR.bucketAt (tR.FindBucket k)) = none := by
      rw [findPair_eq_none_iff_not_mem]
      intro hk
      obtain ⟨q, hqb, hqk⟩ := List.mem_map.1 hk
      have := mem_bucketAt_contents (findBucket_lt hRwf.1 k) hqb
      exact habsR (mem_keys_iff.2 ⟨q.2, by
        rwa [show (k, q.2) = q from Prod.ext hqk.symm rfl]⟩)
    rw [setKeyValueNR_eq_insertPair_resize hfp hload hfp2 v]
    obtain ⟨hIperm, hIn⟩ := insertPair_absent tR k v hRwf.1 habsR
    refine ⟨?_, ?_, insertPair_placed tR k v hRwf.2.1, ?_, ?_, ?_, ?_⟩
    · exact hIperm.trans (hRperm.append_right _)
    · right
      rw [insertPair_size, resizeNR_size]
    · intro hcount
      rw [hIn, hRn, hcount]
    · rw [(insertPair_fields tR k v).1, (resizeNR_fields t (t.size * 2)).1]
    · rw [(insertPair_fields tR k v).2.1, (resizeNR_fields t (t.size * 2)).2.1]
    · rw [(insertPair_fields tR k v).2.2, (resizeNR_fields t (t.size * 2)).2.2]
  · rw [setKeyValueNR_eq_insertPair_noresize hfp hload v]
    obtain ⟨hIperm, hIn⟩ := insertPair_absent t k v h0 habs
    refine ⟨hIperm, Or.inl (insertPair_size t k v), insertPair_placed t k v hp,
      fun _ => hIn, (insertPair_fields t k v).1,
      (insertPair_fields t k v).2.1, (insertPair_fields t k v).2.2⟩

/-- Effects of `setKeyValueNR` on a key already present. -/
theorem setKeyValueNR_present (t : CHashTable K V) (k : K) (v : V)
    (hwf : t.WF) (hpres : k ∈ t.keys) :
    (t.setKeyValueNR k v).keys = t.keys ∧
    (t.setKeyValueNR k v).m_iNumEntries = t.m_iNumEntries ∧
    (k, v) ∈ (t.setKeyValueNR k v).contents ∧
    (∀ q : K × V, q.1 ≠ k →
      (q ∈ (t.setKeyValueNR k v).contents ↔ q ∈ t.contents)) ∧
    (t.setKeyValueNR k v).contents.length = t.contents.length ∧
    (t.setKeyValueNR k v).size = t.size ∧
    (t.setKeyValueNR k v).Placed ∧
    (t.setKeyValueNR k v).m_kpfHashFunction = t.m_kpfHashFunction ∧
    (t.setKeyValueNR k v).lfNum = t.lfNum ∧
    (t.setKeyValueNR k v).lfDen = t.lfDen := by
  obtain ⟨h0, hp, hnd⟩ := hwf
  obtain ⟨v0, hv0⟩ := mem_keys_iff.1 hpres
  have hb : (k, v0) ∈ t.bucketAt (t.FindBucket k) := mem_bucket_findBucket hp hv0
  have hkb : k ∈ (t.bucketAt (t.FindBucket k)).map Prod.fst :=
    List.mem_map.2 ⟨(k, v0), hb, rfl⟩
  cases hfp : FindKeyValuePair k (t.bucketAt (t.FindBucket k)) with
  | none => exact absurd (findPair_eq_none_iff_not_mem.1 hfp) (by simp [hkb])
  | some p =>
      rw [setKeyValueNR_eq_insertPair_found hfp v]
      obtain ⟨hkeys, hn, hmem, hother, hlen, hsz, hhf, hn1, hn2⟩ :=
        insertPair_present t k v h0 hp hpres
      exact ⟨hkeys, hn, hmem, hother, hlen, hsz,
        insertPair_placed t k v hp, hhf, hn1, hn2⟩

/-- `setKeyValueNR` preserves well-formedness. -/
theorem setKeyValueNR_WF (t : CHashTable K V) (k : K) (v : V) (hwf : t.WF) :
    (t.setKeyValueNR k v).WF := by
  by_cases hpres : k ∈ t.keys
  · obtain ⟨hkeys, _, _, _, _, hsz, hpl, _, _, _⟩ :=
      setKeyValueNR_present t k v hwf hpres
    exact ⟨by rw [hsz]; exact hwf.1, hpl, by rw [hkeys]; exact hwf.2.2⟩
  · obtain ⟨hperm, hsz, hpl, _, _, _, _⟩ := setKeyValueNR_absent t k v hwf hpres
    refine ⟨?_, hpl, ?_⟩
    · have h0 : 0 < t.size := hwf.1
      rcases hsz with h | h <;> rw [h] <;> omega
    · have hkp : (t.setKeyValueNR k v).keys.Perm (t.keys ++ [k]) := by
        have := hperm.map Prod.fst
        simpa [keys] using this
      rw [hkp.nodup_iff]
      exact hwf.2.2.append (by simp) (by
        intro a ha hb
        simp only [List.mem_singleton] at hb
        exact hpres (hb ▸ ha))

/-- Round trip: looking up the key just written finds the written value. -/
theorem lookUpKey_setKeyValueNR_self (t : CHashTable K V) (k : K) (v : V)
    (hwf : t.WF) : (t.setKeyValueNR k v).LookUpKey k = some v := by
  rw [lookUpKey_eq_some_iff (setKeyValueNR_WF t k v hwf)]
  by_cases hpres : k ∈ t.keys
  · exact (setKeyValueNR_present t k v hwf hpres).2.2.1
  · have := (setKeyValueNR_absent t k v hwf hpres).1
    rw [this.mem_iff]
    simp

/-- Frame: writing key `k` does not change the lookup of any other key. -/
theorem lookUpKey_setKeyValueNR_other (t : CHashTable K V) (k k2 : K) (v : V)
    (hwf : t.WF) (hne : k2 ≠ k) :
    (t.setKeyValueNR k v).LookUpKey k2 = t.LookUpKey k2 := by
  have hwf' := setKeyValueNR_WF t k v hwf
  cases hlk : t.LookUpKey k2 with
  | some w =>
      have hmem := (lookUpKey_eq_some_iff hwf).1 hlk
      rw [lookUpKey_eq_some_iff hwf']
      by_cases hpres : k ∈ t.keys
      · exact ((setKeyValueNR_present t k v hwf hpres).2.2.2.1 (k2, w) hne).2 hmem
      · rw [((setKeyValueNR_absent t k v hwf hpres).1).mem_iff]
        simp [hmem]
  | none =>
      have hk2 : k2 ∉ t.keys := (lookUpKey_eq_none_iff hwf).1 hlk
      rw [lookUpKey_eq_none_iff hwf']
      by_cases hpres : k ∈ t.keys
      · rw [(setKeyValueNR_present t k v hwf hpres).1]
        exact hk2
      · intro hmem
        have hkp : (t.setKeyValueNR k v).keys.Perm (t.keys ++ [k]) := by
          have := ((setKeyValueNR_absent t k v hwf hpres).1).map Prod.fst
          simpa [keys] using this
        rcases List.mem_append.1 (hkp.mem_iff.1 hmem) with h | h
        · exact hk2 h
        · exact hne (by simpa using h)

/-- After any `setKeyValueNR`, the written key has exactly one entry. -/
theorem countKey_setKeyValueNR_self (t : CHashTable K V) (k : K) (v : V)
    (hwf : t.WF) : (t.setKeyValueNR k v).countKey k = 1 := by
  unfold countKey
  by_cases hpres : k ∈ t.keys
  · rw [(setKeyValueNR_present t k v hwf hpres).1]
    exact List.count_eq_one_of_mem hwf.2.2 hpres
  · have hkp : (t.setKeyValueNR k v).keys.Perm (t.keys ++ [k]) := by
      have := ((setKeyValueNR_absent t k v hwf hpres).1).map Prod.fst
      simpa [keys] using this
    rw [hkp.count_eq]
    simp [List.count_eq_zero_of_not_mem hpres]

/-- The entry count is untouched by overwriting an existing key. -/
theorem numEntries_setKeyValueNR_present (t : CHashTable K V) (k : K) (v : V)
    (hwf : t.WF) (hpres : k ∈ t.keys) :
    (t.setKeyValueNR k v).m_iNumEntries = t.m_iNumEntries :=
  (setKeyValueNR_present t k v hwf hpres).2.1

/-- Key membership after `setKeyValueNR`. -/
theorem mem_keys_setKeyValueNR (t : CHashTable K V) (k k2 : K) (v : V)
    (hwf : t.WF) :
    (k2 ∈ (t.setKeyValueNR k v).keys ↔ k2 ∈ t.keys ∨ k2 = k) := by
  by_cases hpres : k ∈ t.keys
  · rw [(setKeyValueNR_present t k v hwf hpres).1]
    constructor
    · exact Or.inl
    · rintro (h | rfl)
      · exact h
      · exact hpres
  · have hkp : (t.setKeyValueNR k v).keys.Perm (t.keys ++ [k]) := by
      have := ((setKeyValueNR_absent t k v hwf hpres).1).map Prod.fst
      simpa [keys] using this
    rw [hkp.mem_iff]
    simp

/-! ### `RemoveKey` -/

theorem removeKey_notfound {t : CHashTable K V} {k : K}
    (hfp : FindKeyValuePair k (t.bucketAt (t.FindBucket k)) = none) :
    t.RemoveKey k = (false, t) := by
  simp only [RemoveKey, hfp]

theorem removeKey_found {t : CHashTable K V} {k : K} {p : K × V}
    (hfp : FindKeyValuePair k (t.bucketAt (t.FindBucket k)) = some p) :
    t.RemoveKey k = (true,
      { t with
          m_aBuckets := t.m_aBuckets.set (t.FindBucket k)
            (eraseKey k (t.bucketAt (t.FindBucket k))),
          m_iNumEntries := t.m_iNumEntries - 1 }) := by
  simp only [RemoveKey, hfp]

/-- Removal of an absent key returns `false` and the very same table. -/
theorem removeKey_absent (t : CHashTable K V) (k : K) (hwf : t.WF)
    (habs : k ∉ t.keys) : t.RemoveKey k = (false, t) :=
  removeKey_notfound ((findPair_bucket_eq_none_iff hwf).2 habs)

omit [DecidableEq K] in
theorem bucketAt_of_le {t : CHashTable K V} {i : Nat} (hi : t.size ≤ i) :
    t.bucketAt i = [] := by
  unfold bucketAt
  rw [List.getD_eq_default]
  exact hi

/-- A found pair forces the bucket index to be in range. -/
theorem findBucket_lt_of_found {t : CHashTable K V} {k : K} {p : K × V}
    (hfp : FindKeyValuePair k (t.bucketAt (t.FindBucket k)) = some p) :
    t.FindBucket k < t.size := by
  by_contra h
  rw [bucketAt_of_le (Nat.le_of_not_lt h)] at hfp
  simp [FindKeyValuePair] at hfp

/-- Effects of removing a present key: the pair is erased, the count drops
by one, well-formedness is preserved, and no other key's lookup changes. -/
theorem removeKey_present (t : CHashTable K V) (k : K) (hwf : t.WF)
    (hpres : k ∈ t.keys) :
    (t.RemoveKey k).1 = true ∧
    (∃ w, (k, w) ∈ t.contents ∧
      t.contents.Perm ((k, w) :: (t.RemoveKey k).2.contents)) ∧
    (t.RemoveKey k).2.m_iNumEntries = t.m_iNumEntries - 1 ∧
    (t.RemoveKey k).2.size = t.size ∧
    (t.RemoveKey k).2.WF ∧
    k ∉ (t.RemoveKey k).2.keys ∧
    (t.RemoveKey k).2.m_kpfHashFunction = t.m_kpfHashFunction ∧
    (t.RemoveKey k).2.lfNum = t.lfNum ∧
    (t.RemoveKey k).2.lfDen = t.lfDen := by
  obtain ⟨h0, hp, hnd⟩ := hwf
  obtain ⟨v0, hv0⟩ := mem_keys_iff.1 hpres
  have hb : (k, v0) ∈ t.bucketAt (t.FindBucket k) := mem_bucket_findBucket hp hv0
  have hkb : k ∈ (t.bucketAt (t.FindBucket k)).map Prod.fst :=
    List.mem_map.2 ⟨(k, v0), hb, rfl⟩
  cases hfp : FindKeyValuePair k (t.bucketAt (t.FindBucket k)) with
  | none => exact absurd (findPair_eq_none_iff_not_mem.1 hfp) (by simp [hkb])
  | some p =>
      obtain ⟨hpmem, hpk⟩ := findPair_eq_some hfp
      rw [removeKey_found hfp]
      obtain ⟨pre, post, h1, h2⟩ :=
        flatten_set_decomp (l := t.m_aBuckets) (findBucket_lt h0 k)
      have hco : t.contents = pre ++ (t.bucketAt (t.FindBucket k) ++ post) := h1
      have hcr :
          ({ t with
              m_aBuckets := t.m_aBuckets.set (t.FindBucket k)
                (eraseKey k (t.bucketAt (t.FindBucket k))),
              m_iNumEntries := t.m_iNumEntries - 1 } :
            CHashTable K V).contents
          = pre ++ (eraseKey k (t.bucketAt (t.FindBucket k)) ++ post) := h2 _
      have hbp := perm_eraseKey hfp
      have hperm : t.contents.Perm
          (p :: (pre ++ (eraseKey k (t.bucketAt (t.FindBucket k)) ++ post))) := by
        rw [hco]
        have hstep := (hbp.append_right post).append_left pre
        refine hstep.trans ?_
        have : (p :: eraseKey k (t.bucketAt (t.FindBucket k))) ++ post
            = p :: (eraseKey k (t.bucketAt (t.FindBucket k)) ++ post) := by simp
        rw [this]
        exact List.perm_middle
      have hkeysperm : t.keys.Perm (k :: ({ t with
          m_aBuckets := t.m_aBuckets.set (t.FindBucket k)
            (eraseKey k (t.bucketAt (t.FindBucket k))),
          m_iNumEntries := t.m_iNumEntries - 1 } :
            CHashTable K V).keys) := by
        have hmap := hperm.map Prod.fst
        unfold keys
        rw [hcr]
        simpa [hpk] using hmap
      refine ⟨rfl, ⟨p.2, ?_, ?_⟩, rfl, by simp [size], ?_, ?_, rfl, rfl, rfl⟩
      · rw [show (k, p.2) = p from Prod.ext hpk.symm rfl]
        exact mem_bucketAt_contents (findBucket_lt h0 k) hpmem
      · rw [show (k, p.2) = p from Prod.ext hpk.symm rfl, hcr]
        exact hperm
      · refine ⟨by simp [size]; exact h0, ?_, ?_⟩
        · rw [placed_iff]
          intro j q hq
          by_cases hj : j = t.FindBucket k
          · have hq' : q ∈ (t.m_aBuckets.set (t.FindBucket k)
                (eraseKey k (t.bucketAt (t.FindBucket k)))).getD j [] := hq
            rw [hj, getD_set_self (findBucket_lt h0 k)] at hq'
            have hqb := mem_eraseKey hq'
            have := (placed_iff.1 hp) (t.FindBucket k) q hqb
            show t.m_kpfHashFunction q.1 % (t.m_aBuckets.set (t.FindBucket k)
              (eraseKey k (t.bucketAt (t.FindBucket k)))).length = j
            rw [List.length_set, hj]
            exact this
          · have hq' : q ∈ (t.m_aBuckets.set (t.FindBucket k)
                (eraseKey k (t.bucketAt (t.FindBucket k)))).getD j [] := hq
            rw [getD_set_ne hj] at hq'
            show t.m_kpfHashFunction q.1 % (t.m_aBuckets.set (t.FindBucket k)
              (eraseKey k (t.bucketAt (t.FindBucket k)))).length = j
            rw [List.length_set]
            exact (placed_iff.1 hp) j q hq'
        · have := hkeysperm.nodup_iff.1 hnd
          exact (List.nodup_cons.1 this).2
      · intro hk
        have := hkeysperm.nodup_iff.1 hnd
        exact (List.nodup_cons.1 this).1 hk

/-- After removing `k`, looking up `k` fails and other keys are unchanged. -/
theorem removeKey_lookups (t : CHashTable K V) (k : K) (hwf : t.WF)
    (hpres : k ∈ t.keys) :
    (t.RemoveKey k).2.LookUpKey k = none ∧
    (∀ k2, k2 ≠ k → (t.RemoveKey k).2.LookUpKey k2 = t.LookUpKey k2) := by
  obtain ⟨h1, ⟨w, hw, hperm⟩, hn, hsz, hwf', hknot, _, _, _⟩ :=
    removeKey_present t k hwf hpres
  constructor
  · exact (lookUpKey_eq_none_iff hwf').2 hknot
  · intro k2 hne
    cases hlk : t.LookUpKey k2 with
    | some u =>
        have hmem := (lookUpKey_eq_some_iff hwf).1 hlk
        rw [lookUpKey_eq_some_iff hwf']
        have := hperm.mem_iff.1 hmem
        rcases List.mem_cons.1 this with h | h
        · exact absurd (congrArg Prod.fst h) (by simpa using hne)
        · exact h
    | none =>
        have hk2 : k2 ∉ t.keys := (lookUpKey_eq_none_iff hwf).1 hlk
        rw [lookUpKey_eq_none_iff hwf']
        intro hmem
        obtain ⟨u, hu⟩ := mem_keys_iff.1 hmem
        have : (k2, u) ∈ t.contents :=
          hperm.mem_iff.2 (List.mem_cons_of_mem _ hu)
        exact hk2 (mem_keys_iff.2 ⟨u, this⟩)

/-- `RemoveKey` never changes the bucket count. -/
theorem removeKey_size (t : CHashTable K V) (k : K) :
    (t.RemoveKey k).2.size = t.size := by
  cases hfp : FindKeyValuePair k (t.bucketAt (t.FindBucket k)) with
  | none => rw [removeKey_notfound hfp]
  | some p => rw [removeKey_found hfp]; simp [size]

theorem removeKey_fields (t : CHashTable K V) (k : K) :
    (t.RemoveKey k).2.m_kpfHashFunction = t.m_kpfHashFunction ∧
    (t.RemoveKey k).2.lfNum = t.lfNum ∧
    (t.RemoveKey k).2.lfDen = t.lfDen := by
  cases hfp : FindKeyValuePair k (t.bucketAt (t.FindBucket k)) with
  | none => rw [removeKey_notfound hfp]; exact ⟨rfl, rfl, rfl⟩
  | some p => rw [removeKey_found hfp]; exact ⟨rfl, rfl, rfl⟩

theorem removeKey_numEntries_le (t : CHashTable K V) (k : K) :
    (t.RemoveKey k).2.m_iNumEntries ≤ t.m_iNumEntries := by
  cases hfp : FindKeyValuePair k (t.bucketAt (t.FindBucket k)) with
  | none => rw [removeKey_notfound hfp]
  | some p => rw [removeKey_found hfp]; simp

/-! ### `RemoveAllKeys` -/

omit [DecidableEq K] in
theorem removeAllKeys_spec (t : CHashTable K V) :
    t.RemoveAllKeys.size = t.size ∧
    t.RemoveAllKeys.m_iNumEntries = t.m_iNumEntries ∧
    t.RemoveAllKeys.contents = [] ∧
    (∀ i, t.RemoveAllKeys.bucketAt i = []) ∧
    t.RemoveAllKeys.Placed ∧
    t.RemoveAllKeys.m_kpfHashFunction = t.m_kpfHashFunction ∧
    t.RemoveAllKeys.lfNum = t.lfNum ∧
    t.RemoveAllKeys.lfDen = t.lfDen := by
  refine ⟨by simp [size, RemoveAllKeys], rfl, ?_, ?_, ?_, rfl, rfl, rfl⟩
  · unfold contents RemoveAllKeys
    exact flatten_map_const_nil
  · intro i
    unfold bucketAt RemoveAllKeys
    exact getD_map_const_nil
  · rw [placed_iff]
    intro i p hp
    have : t.RemoveAllKeys.bucketAt i = [] := by
      unfold bucketAt RemoveAllKeys
      exact getD_map_const_nil
    rw [this] at hp
    simp at hp

/-- Looking up anything after `RemoveAllKeys` fails. -/
theorem lookUpKey_removeAllKeys (t : CHashTable K V) (k : K) :
    t.RemoveAllKeys.LookUpKey k = none := by
  unfold LookUpKey
  have : t.RemoveAllKeys.bucketAt (t.RemoveAllKeys.FindBucket k) = [] := by
    unfold bucketAt RemoveAllKeys
    exact getD_map_const_nil
  rw [this]
  rfl

/-! ### Unconditional shape lemmas for `setKeyValueNR` -/

theorem setKeyValueNR_none_load_eq {t : CHashTable K V} {k : K}
    (hfp : FindKeyValuePair k (t.bucketAt (t.FindBucket k)) = none)
    (hload : t.m_iNumEntries * t.lfDen > t.size * t.lfNum) (v : V) :
    t.setKeyValueNR k v =
      { t.resizeNR (t.size * 2) with
          m_aBuckets := (t.resizeNR (t.size * 2)).m_aBuckets.set
            ((t.resizeNR (t.size * 2)).FindBucket k)
            ((t.resizeNR (t.size * 2)).bucketAt
              ((t.resizeNR (t.size * 2)).FindBucket k) ++ [(k, v)]),
          m_iNumEntries := (t.resizeNR (t.size * 2)).m_iNumEntries + 1 } := by
  simp only [setKeyValueNR, hfp, if_pos hload]

theorem insertPair_none_numEntries {t : CHashTable K V} {k : K}
    (hfp : FindKeyValuePair k (t.bucketAt (t.FindBucket k)) = none) (v : V) :
    (t.insertPair k v).m_iNumEntries = t.m_iNumEntries + 1 := by
  simp only [insertPair, hfp]

theorem insertPair_found_lengths {t : CHashTable K V} {k : K} {p : K × V}
    (hfp : FindKeyValuePair k (t.bucketAt (t.FindBucket k)) = some p)
    (v : V) :
    (t.insertPair k v).m_iNumEntries = t.m_iNumEntries ∧
    (t.insertPair k v).contents.length = t.contents.length := by
  rw [insertPair_found_eq hfp v]
  refine ⟨rfl, ?_⟩
  by_cases hi : t.FindBucket k < t.size
  · obtain ⟨pre, post, h1, h2⟩ := flatten_set_decomp (l := t.m_aBuckets) hi
    show (List.flatten _).length = t.contents.length
    rw [h2]
    unfold contents
    rw [h1]
    simp [length_updateValue, bucketAt]
  · rw [List.set_eq_of_length_le (Nat.le_of_not_lt hi)]

omit [DecidableEq K] in
/-- Appending one pair into a bucket adds at most one to the contents. -/
theorem contents_set_append_le (t : CHashTable K V) (k : K) (v : V)
    (n' : Nat) :
    ({ t with
        m_aBuckets := t.m_aBuckets.set (t.FindBucket k)
          (t.bucketAt (t.FindBucket k) ++ [(k, v)]),
        m_iNumEntries := n' } : CHashTable K V).contents.length
      ≤ t.contents.length + 1 := by
  by_cases hi : t.FindBucket k < t.size
  · obtain ⟨pre, post, h1, h2⟩ := flatten_set_decomp (l := t.m_aBuckets) hi
    show (List.flatten _).length ≤ t.contents.length + 1
    rw [h2]
    unfold contents
    rw [h1]
    simp only [List.length_append, List.length_singleton]
    unfold bucketAt
    omega
  · rw [List.set_eq_of_length_le (Nat.le_of_not_lt hi)]
    exact Nat.le_succ _

omit [DecidableEq K] in
/-- The append form used by the resize branch keeps placement. -/
theorem placed_set_append (t : CHashTable K V) (k : K) (v : V) (n' : Nat)
    (hp : t.Placed) :
    ({ t with
        m_aBuckets := t.m_aBuckets.set (t.FindBucket k)
          (t.bucketAt (t.FindBucket k) ++ [(k, v)]),
        m_iNumEntries := n' } : CHashTable K V).Placed := by
  rw [placed_iff] at hp ⊢
  intro j q hq
  by_cases hi : t.FindBucket k < t.size
  · by_cases hj : j = t.FindBucket k
    · have hq' : q ∈ (t.m_aBuckets.set (t.FindBucket k)
          (t.bucketAt (t.FindBucket k) ++ [(k, v)])).getD j [] := hq
      rw [hj, getD_set_self hi] at hq'
      show t.m_kpfHashFunction q.1 % (t.m_aBuckets.set (t.FindBucket k)
        (t.bucketAt (t.FindBucket k) ++ [(k, v)])).length = j
      rw [List.length_set, hj]
      rcases List.mem_append.1 hq' with h | h
      · exact hp _ q h
      · have : q = (k, v) := by simpa using h
        rw [this]
        rfl
    · have hq' : q ∈ (t.m_aBuckets.set (t.FindBucket k)
          (t.bucketAt (t.FindBucket k) ++ [(k, v)])).getD j [] := hq
      rw [getD_set_ne hj] at hq'
      show t.m_kpfHashFunction q.1 % (t.m_aBuckets.set (t.FindBucket k)
        (t.bucketAt (t.FindBucket k) ++ [(k, v)])).length = j
      rw [List.length_set]
      exact hp j q hq'
  · rw [List.set_eq_of_length_le (Nat.le_of_not_lt hi)] at hq ⊢
    exact hp j q hq

/-- `setKeyValueNR` preserves placement, with no well-formedness assumption. -/
theorem setKeyValueNR_placed (t : CHashTable K V) (k : K) (v : V)
    (hp : t.Placed) : (t.setKeyValueNR k v).Placed := by
  cases hfp : FindKeyValuePair k (t.bucketAt (t.FindBucket k)) with
  | some p =>
      rw [setKeyValueNR_eq_insertPair_found hfp v]
      exact insertPair_placed t k v hp
  | none =>
      by_cases hload : t.m_iNumEntries * t.lfDen > t.size * t.lfNum
      · rw [setKeyValueNR_none_load_eq hfp hload v]
        exact placed_set_append _ k v _ (resizeNR_placed t _)
      · rw [setKeyValueNR_eq_insertPair_noresize hfp hload v]
        exact insertPair_placed t k v hp

/-- The only way `setKeyValueNR` changes the bucket count is the doubling
resize. -/
theorem setKeyValueNR_size_or (t : CHashTable K V) (k : K) (v : V) :
    (t.setKeyValueNR k v).size = t.size ∨
    (t.setKeyValueNR k v).size = t.size * 2 := by
  cases hfp : FindKeyValuePair k (t.bucketAt (t.FindBucket k)) with
  | some p =>
      left
      rw [setKeyValueNR_eq_insertPair_found hfp v, insertPair_size]
  | none =>
      by_cases hload : t.m_iNumEntries * t.lfDen > t.size * t.lfNum
      · right
        rw [setKeyValueNR_none_load_eq hfp hload v]
        show ((t.resizeNR (t.size * 2)).m_aBuckets.set _ _).length = t.size * 2
        rw [List.length_set]
        exact resizeNR_size t _
      · left
        rw [setKeyValueNR_eq_insertPair_noresize hfp hload v, insertPair_size]

theorem setKeyValueNR_fields (t : CHashTable K V) (k : K) (v : V) :
    (t.setKeyValueNR k v).m_kpfHashFunction = t.m_kpfHashFunction ∧
    (t.setKeyValueNR k v).lfNum = t.lfNum ∧
    (t.setKeyValueNR k v).lfDen = t.lfDen := by
  cases hfp : FindKeyValuePair k (t.bucketAt (t.FindBucket k)) with
  | some p =>
      rw [setKeyValueNR_eq_insertPair_found hfp v]
      exact insertPair_fields t k v
  | none =>
      by_cases hload : t.m_iNumEntries * t.lfDen > t.size * t.lfNum
      · rw [setKeyValueNR_none_load_eq hfp hload v]
        obtain ⟨h1, h2, h3⟩ := resizeNR_fields t (t.size * 2)
        exact ⟨h1, h2, h3⟩
      · rw [setKeyValueNR_eq_insertPair_noresize hfp hload v]
        exact insertPair_fields t k v

theorem removeKey_placed (t : CHashTable K V) (k : K) (hp : t.Placed) :
    (t.RemoveKey k).2.Placed := by
  cases hfp : FindKeyValuePair k (t.bucketAt (t.FindBucket k)) with
  | none => rw [removeKey_notfound hfp]; exact hp
  | some p =>
      rw [removeKey_found hfp]
      rw [placed_iff] at hp ⊢
      intro j q hq
      have hi := findBucket_lt_of_found hfp
      by_cases hj : j = t.FindBucket k
      · have hq' : q ∈ (t.m_aBuckets.set (t.FindBucket k)
            (eraseKey k (t.bucketAt (t.FindBucket k)))).getD j [] := hq
        rw [hj, getD_set_self hi] at hq'
        show t.m_kpfHashFunction q.1 % (t.m_aBuckets.set (t.FindBucket k)
          (eraseKey k (t.bucketAt (t.FindBucket k)))).length = j
        rw [List.length_set, hj]
        exact hp _ q (mem_eraseKey hq')
      · have hq' : q ∈ (t.m_aBuckets.set (t.FindBucket k)
            (eraseKey k (t.bucketAt (t.FindBucket k)))).getD j [] := hq
        rw [getD_set_ne hj] at hq'
        show t.m_kpfHashFunction q.1 % (t.m_aBuckets.set (t.FindBucket k)
          (eraseKey k (t.bucketAt (t.FindBucket k)))).length = j
        rw [List.length_set]
        exact hp j q hq'

theorem removeKey_found_contents_length {t : CHashTable K V} {k : K}
    {p : K × V}
    (hfp : FindKeyValuePair k (t.bucketAt (t.FindBucket k)) = some p) :
    (t.RemoveKey k).2.contents.length + 1 = t.contents.length := by
  have hi := findBucket_lt_of_found hfp
  rw [removeKey_found hfp]
  obtain ⟨pre, post, h1, h2⟩ := flatten_set_decomp (l := t.m_aBuckets) hi
  show (List.flatten _).length + 1 = t.contents.length
  rw [h2]
  unfold contents
  rw [h1]
  have hblen := (perm_eraseKey hfp).length_eq
  simp only [List.length_cons] at hblen
  simp only [List.length_append]
  unfold bucketAt at hblen ⊢
  omega

/-! ### Operation-level invariants -/

omit [DecidableEq K] in
theorem create_spec (S : Nat) (hf : K → Nat) (m d : Nat) :
    (create S hf m d : CHashTable K V).size = S ∧
    (create S hf m d : CHashTable K V).m_iNumEntries = 0 ∧
    (create S hf m d : CHashTable K V).contents = [] ∧
    (create S hf m d : CHashTable K V).keys = [] ∧
    (create S hf m d : CHashTable K V).Placed ∧
    (create S hf m d : CHashTable K V).lfNum = m ∧
    (create S hf m d : CHashTable K V).lfDen = d ∧
    (create S hf m d : CHashTable K V).m_kpfHashFunction = hf := by
  have hc : (create S hf m d : CHashTable K V).contents = [] := by
    unfold contents create
    exact flatten_replicate_nil
  refine ⟨by simp [size, create], rfl, hc, ?_, ?_, rfl, rfl, rfl⟩
  · unfold keys
    rw [hc]
    rfl
  · rw [placed_iff]
    intro i q hq
    have : (create S hf m d : CHashTable K V).bucketAt i = [] := by
      unfold bucketAt create
      exact getD_replicate_nil
    rw [this] at hq
    simp at hq

theorem create_WF (S : Nat) (hf : K → Nat) (m d : Nat) (hS : 0 < S) :
    (create S hf m d : CHashTable K V).WF := by
  obtain ⟨hsz, _, _, hk, hpl, _, _, _⟩ := create_spec (V := V) S hf m d
  exact ⟨by rwa [hsz], hpl, by rw [hk]; exact List.nodup_nil⟩

theorem applyOpNR_size_le (t : CHashTable K V) (op : TOp K V) :
    t.size ≤ (applyOpNR t op).size := by
  cases op with
  | setKV k v =>
      rcases setKeyValueNR_size_or t k v with h | h <;>
        simp only [applyOpNR] <;> omega
  | removeK k =>
      simp only [applyOpNR]
      rw [removeKey_size]
  | removeAll =>
      simp only [applyOpNR]
      rw [(removeAllKeys_spec t).1]

theorem runOpsNR_size_le (t : CHashTable K V) (ops : List (TOp K V)) :
    t.size ≤ (runOpsNR t ops).size := by
  induction ops generalizing t with
  | nil => exact Nat.le_refl _
  | cons op ops ih =>
      exact Nat.le_trans (applyOpNR_size_le t op) (ih (applyOpNR t op))

theorem applyOpNR_placed (t : CHashTable K V) (op : TOp K V)
    (hp : t.Placed) : (applyOpNR t op).Placed := by
  cases op with
  | setKV k v => exact setKeyValueNR_placed t k v hp
  | removeK k => exact removeKey_placed t k hp
  | removeAll => exact (removeAllKeys_spec t).2.2.2.2.1

theorem runOpsNR_placed (t : CHashTable K V) (ops : List (TOp K V))
    (hp : t.Placed) : (runOpsNR t ops).Placed := by
  induction ops generalizing t with
  | nil => exact hp
  | cons op ops ih => exact ih (applyOpNR t op) (applyOpNR_placed t op hp)

/-- One-step preservation of the load-factor invariant: the stored pair
count never exceeds the entry counter, and the entry counter can exceed
`Size * MaxLoadFactor` by at most the one insertion just performed,
provided the threshold `Size * MaxLoadFactor` is at least `1/2`. -/
theorem applyOpNR_inv (t : CHashTable K V) (op : TOp K V)
    (h1 : t.contents.length ≤ t.m_iNumEntries)
    (h2 : t.m_iNumEntries * t.lfDen ≤ t.size * t.lfNum + t.lfDen)
    (h3 : t.lfDen ≤ 2 * (t.size * t.lfNum)) :
    (applyOpNR t op).lfNum = t.lfNum ∧ (applyOpNR t op).lfDen = t.lfDen ∧
    (applyOpNR t op).contents.length ≤ (applyOpNR t op).m_iNumEntries ∧
    (applyOpNR t op).m_iNumEntries * t.lfDen
      ≤ (applyOpNR t op).size * t.lfNum + t.lfDen ∧
    t.lfDen ≤ 2 * ((applyOpNR t op).size * t.lfNum) := by
  cases op with
  | setKV k v =>
      simp only [applyOpNR]
      obtain ⟨hhf, hm, hd⟩ := setKeyValueNR_fields t k v
      refine ⟨hm, hd, ?_⟩
      cases hfp : FindKeyValuePair k (t.bucketAt (t.FindBucket k)) with
      | some p =>
          rw [setKeyValueNR_eq_insertPair_found hfp v]
          obtain ⟨hn, hc⟩ := insertPair_found_lengths hfp v
          refine ⟨by rw [hn, hc]; exact h1, ?_, ?_⟩
          · rw [hn, insertPair_size]
            exact h2
          · rw [insertPair_size]
            exact h3
      | none =>
          by_cases hload : t.m_iNumEntries * t.lfDen > t.size * t.lfNum
          · rw [setKeyValueNR_none_load_eq hfp hload v]
            have hRn := resizeNR_numEntries_le t (t.size * 2)
            have hRc := resizeNR_c_le_n t (t.size * 2)
            have hRs : (t.resizeNR (t.size * 2)).m_aBuckets.length
                = t.size * 2 := resizeNR_size t _
            have hkey : (t.resizeNR (t.size * 2)).m_iNumEntries * t.lfDen
                ≤ 2 * (t.size * t.lfNum) := by
              have hRtn : (t.resizeNR (t.size * 2)).m_iNumEntries * t.lfDen
                  ≤ t.m_iNumEntries * t.lfDen :=
                Nat.mul_le_mul_right _ (Nat.le_trans hRn h1)
              by_cases hcase : t.lfDen ≤ t.size * t.lfNum
              · omega
              · have hn1 : t.m_iNumEntries ≤ 1 := by
                  by_contra hgt
                  have h2d : 2 * t.lfDen ≤ t.m_iNumEntries * t.lfDen :=
                    Nat.mul_le_mul_right _ (by omega)
                  omega
                have hfin : (t.resizeNR (t.size * 2)).m_iNumEntries * t.lfDen
                    ≤ 1 * t.lfDen :=
                  Nat.mul_le_mul_right _
                    (Nat.le_trans hRn (Nat.le_trans h1 hn1))
                omega
            refine ⟨?_, ?_, ?_⟩
            · refine Nat.le_trans
                (contents_set_append_le (t.resizeNR (t.size * 2)) k v _) ?_
              show (t.resizeNR (t.size * 2)).contents.length + 1
                ≤ (t.resizeNR (t.size * 2)).m_iNumEntries + 1
              omega
            · show ((t.resizeNR (t.size * 2)).m_iNumEntries + 1) * t.lfDen
                ≤ ((t.resizeNR (t.size * 2)).m_aBuckets.set
                    ((t.resizeNR (t.size * 2)).FindBucket k)
                    ((t.resizeNR (t.size * 2)).bucketAt
                      ((t.resizeNR (t.size * 2)).FindBucket k)
                      ++ [(k, v)])).length * t.lfNum + t.lfDen
              rw [List.length_set, hRs, Nat.succ_mul,
                show t.size * 2 * t.lfNum = 2 * (t.size * t.lfNum) by ring]
              omega
            · show t.lfDen ≤ 2 * (((t.resizeNR (t.size * 2)).m_aBuckets.set
                  ((t.resizeNR (t.size * 2)).FindBucket k)
                  ((t.resizeNR (t.size * 2)).bucketAt
                    ((t.resizeNR (t.size * 2)).FindBucket k)
                    ++ [(k, v)])).length * t.lfNum)
              rw [List.length_set, hRs,
                show t.size * 2 * t.lfNum = 2 * (t.size * t.lfNum) by ring]
              omega
          · rw [setKeyValueNR_eq_insertPair_noresize hfp hload v]
            have hn := insertPair_none_numEntries hfp v
            refine ⟨insertPair_c_le_n t k v h1, ?_, ?_⟩
            · rw [hn, insertPair_size, Nat.succ_mul]
              omega
            · rw [insertPair_size]
              exact h3
  | removeK k =>
      simp only [applyOpNR]
      obtain ⟨hhf, hm, hd⟩ := removeKey_fields t k
      refine ⟨hm, hd, ?_⟩
      cases hfp : FindKeyValuePair k (t.bucketAt (t.FindBucket k)) with
      | none =>
          rw [removeKey_notfound hfp]
          exact ⟨h1, h2, h3⟩
      | some p =>
          have hc := removeKey_found_contents_length hfp
          have hs := removeKey_size t k
          have hn : (t.RemoveKey k).2.m_iNumEntries
              = t.m_iNumEntries - 1 := by
            rw [removeKey_found hfp]
          refine ⟨by omega, ?_, by rw [hs]; exact h3⟩
          rw [hn, hs]
          have hmono : (t.m_iNumEntries - 1) * t.lfDen
              ≤ t.m_iNumEntries * t.lfDen :=
            Nat.mul_le_mul_right _ (Nat.sub_le _ _)
          omega
  | removeAll =>
      simp only [applyOpNR]
      obtain ⟨hs, hn, hc, _, _, _, h5, h6⟩ := removeAllKeys_spec t
      refine ⟨h5, h6, ?_, ?_, ?_⟩
      · rw [hc, hn]
        simp
      · rw [hn, hs]
        exact h2
      · rw [hs]
        exact h3

/-- The load-factor invariant holds after any operation sequence, provided
it holds initially and the threshold is at least `1/2`. -/
theorem runOpsNR_inv (t : CHashTable K V) (ops : List (TOp K V))
    (h1 : t.contents.length ≤ t.m_iNumEntries)
    (h2 : t.m_iNumEntries * t.lfDen ≤ t.size * t.lfNum + t.lfDen)
    (h3 : t.lfDen ≤ 2 * (t.size * t.lfNum)) :
    (runOpsNR t ops).lfNum = t.lfNum ∧ (runOpsNR t ops).lfDen = t.lfDen ∧
    (runOpsNR t ops).contents.length ≤ (runOpsNR t ops).m_iNumEntries ∧
    (runOpsNR t ops).m_iNumEntries * t.lfDen
      ≤ (runOpsNR t ops).size * t.lfNum + t.lfDen ∧
    t.lfDen ≤ 2 * ((runOpsNR t ops).size * t.lfNum) := by
  induction ops generalizing t with
  | nil => exact ⟨rfl, rfl, h1, h2, h3⟩
  | cons op ops ih =>
      obtain ⟨ha, hb, hc, hd, he⟩ := applyOpNR_inv t op h1 h2 h3
      have hd2 : (applyOpNR t op).m_iNumEntries * (applyOpNR t op).lfDen
          ≤ (applyOpNR t op).size * (applyOpNR t op).lfNum
            + (applyOpNR t op).lfDen := by
        rw [ha, hb]
        exact hd
      have he2 : (applyOpNR t op).lfDen
          ≤ 2 * ((applyOpNR t op).size * (applyOpNR t op).lfNum) := by
        rw [ha, hb]
        exact he
      obtain ⟨ia, ib, ic, id2, ie⟩ := ih (applyOpNR t op) hc hd2 he2
      rw [ha] at ia
      rw [hb] at ib
      rw [ha, hb] at id2 ie
      exact ⟨ia, ib, ic, id2, ie⟩


theorem setKeyValueNR_size_le (t : CHashTable K V) (k : K) (v : V) :
    t.size ≤ (t.setKeyValueNR k v).size := by
  rcases setKeyValueNR_size_or t k v with h | h <;> omega

theorem setKeyValueNR_size_of_load {t : CHashTable K V} {k : K}
    (hfp : FindKeyValuePair k (t.bucketAt (t.FindBucket k)) = none)
    (hload : t.m_iNumEntries * t.lfDen > t.size * t.lfNum) (v : V) :
    (t.setKeyValueNR k v).size = t.size * 2 := by
  rw [setKeyValueNR_none_load_eq hfp hload v]
  show ((t.resizeNR (t.size * 2)).m_aBuckets.set _ _).length = t.size * 2
  rw [List.length_set]
  exact resizeNR_size t _

/-- Inserting a list of pairwise-distinct fresh keys: every pair becomes
retrievable, the counter grows by the list length, other lookups are
untouched, the size never shrinks, and while the size has not grown the
counter stays within one insertion of the threshold. -/
theorem insertListNR_spec (l : List (K × V)) (t : CHashTable K V)
    (hwf : t.WF) (hcount : t.m_iNumEntries = t.contents.length)
    (hdisj : ∀ p ∈ l, p.1 ∉ t.keys) (hnd : (l.map Prod.fst).Nodup) :
    (insertListNR l t).WF ∧
    (insertListNR l t).m_iNumEntries = t.m_iNumEntries + l.length ∧
    (insertListNR l t).m_iNumEntries = (insertListNR l t).contents.length ∧
    (∀ p ∈ l, (insertListNR l t).LookUpKey p.1 = some p.2) ∧
    (∀ k2, k2 ∉ l.map Prod.fst →
      (insertListNR l t).LookUpKey k2 = t.LookUpKey k2) ∧
    (∀ k2, k2 ∈ (insertListNR l t).keys ↔ k2 ∈ t.keys ∨ k2 ∈ l.map Prod.fst) ∧
    t.size ≤ (insertListNR l t).size ∧
    (l ≠ [] → (insertListNR l t).size = t.size →
      (insertListNR l t).m_iNumEntries * t.lfDen
        ≤ t.size * t.lfNum + t.lfDen) := by
  induction l generalizing t with
  | nil =>
      refine ⟨hwf, by simp [insertListNR], by simpa [insertListNR] using hcount,
        by simp, fun k2 _ => by simp [insertListNR],
        fun k2 => by simp [insertListNR], Nat.le_refl _, fun h => absurd rfl h⟩
  | cons p l ih =>
      have hpabs : p.1 ∉ t.keys := hdisj p (List.mem_cons_self _ _)
      simp only [List.map_cons, List.nodup_cons] at hnd
      obtain ⟨hperm, hszor, hpl, hn, _, _, _⟩ :=
        setKeyValueNR_absent t p.1 p.2 hwf hpabs
      have hwf1 := setKeyValueNR_WF t p.1 p.2 hwf
      have hn1 : (t.setKeyValueNR p.1 p.2).m_iNumEntries
          = t.m_iNumEntries + 1 := hn hcount
      have hc1 : (t.setKeyValueNR p.1 p.2).m_iNumEntries
          = (t.setKeyValueNR p.1 p.2).contents.length := by
        rw [hn1, hperm.length_eq]
        simp [hcount]
      have hdisj1 : ∀ q ∈ l, q.1 ∉ (t.setKeyValueNR p.1 p.2).keys := by
        intro q hq hqmem
        rcases (mem_keys_setKeyValueNR t p.1 q.1 p.2 hwf).1 hqmem with h | h
        · exact hdisj q (List.mem_cons_of_mem _ hq) h
        · exact hnd.1 (h ▸ List.mem_map_of_mem Prod.fst hq)
      obtain ⟨iwf, inum, icnt, ilook, iother, ikeys, isz, ibound⟩ :=
        ih (t.setKeyValueNR p.1 p.2) hwf1 hc1 hdisj1 hnd.2
      have hstep : insertListNR (p :: l) t = insertListNR l (t.setKeyValueNR p.1 p.2) := by
        simp [insertListNR]
      rw [hstep]
      obtain ⟨hfld1, hfld2, hfld3⟩ := setKeyValueNR_fields t p.1 p.2
      refine ⟨iwf, ?_, icnt, ?_, ?_, ?_, ?_, ?_⟩
      · rw [inum, hn1]
        simp only [List.length_cons]
        omega
      · intro q hq
        rcases List.mem_cons.1 hq with rfl | hq'
        · rw [iother q.1 (by
            intro hmem
            exact hnd.1 hmem)]
          exact lookUpKey_setKeyValueNR_self t q.1 q.2 hwf
        · exact ilook q hq'
      · intro k2 hk2
        simp only [List.map_cons, List.mem_cons] at hk2
        push_neg at hk2
        rw [iother k2 hk2.2]
        exact lookUpKey_setKeyValueNR_other t p.1 k2 p.2 hwf hk2.1
      · intro k2
        rw [ikeys k2, mem_keys_setKeyValueNR t p.1 k2 p.2 hwf]
        simp only [List.map_cons, List.mem_cons]
        tauto
      · rcases hszor with h | h <;> rw [h] at isz <;> omega
      · intro _ hszeq
        have hfp : FindKeyValuePair p.1 (t.bucketAt (t.FindBucket p.1))
            = none := (findPair_bucket_eq_none_iff hwf).2 hpabs
        by_cases hload : t.m_iNumEntries * t.lfDen > t.size * t.lfNum
        · exfalso
          have h2s := setKeyValueNR_size_of_load hfp hload p.2
          rw [h2s] at isz
          have h0 : 0 < t.size := hwf.1
          omega
        · cases l with
          | nil =>
              simp only [insertListNR, List.foldl_nil] at hszeq ⊢
              rw [hn1, Nat.succ_mul]
              omega
          | cons q l' =>
              have hb := ibound (by simp)
                (by
                  rw [hszeq]
                  rcases hszor with h | h
                  · exact h.symm ▸ rfl
                  · exfalso
                    rw [h] at isz
                    have h0 : 0 < t.size := hwf.1
                    rw [hszeq] at isz
                    omega)
              rcases hszor with h | h
              · rw [← h]
                rw [hfld2, hfld3] at hb
                exact hb
              · exfalso
                rw [h] at isz
                have h0 : 0 < t.size := hwf.1
                rw [hszeq] at isz
                omega

/-! ### The faithful `SetKeyValueFuel` / `ResizeFuel` -/

theorem setKeyValueFuel_zero_eq (t : CHashTable K V) (k : K) (v : V) :
    SetKeyValueFuel 0 t k v = t := by
  simp only [SetKeyValueFuel]

theorem setKeyValueFuel_found_eq (fuel : Nat) {t : CHashTable K V} {k : K}
    {p : K × V}
    (hfp : FindKeyValuePair k (t.bucketAt (t.FindBucket k)) = some p)
    (v : V) : SetKeyValueFuel (fuel + 1) t k v = t.insertPair k v := by
  simp only [SetKeyValueFuel, insertPair, hfp]

theorem setKeyValueFuel_nofire (fuel : Nat) (t : CHashTable K V) (k : K)
    (v : V) (hload : ¬ t.m_iNumEntries * t.lfDen > t.size * t.lfNum) :
    SetKeyValueFuel (fuel + 1) t k v = t.insertPair k v := by
  cases hfp : FindKeyValuePair k (t.bucketAt (t.FindBucket k)) with
  | some p => simp only [SetKeyValueFuel, insertPair, hfp]
  | none => simp only [SetKeyValueFuel, insertPair, hfp, if_neg hload]

theorem setKeyValueFuel_none_fire_eq (fuel : Nat) {t : CHashTable K V}
    {k : K}
    (hfp : FindKeyValuePair k (t.bucketAt (t.FindBucket k)) = none)
    (hload : t.m_iNumEntries * t.lfDen > t.size * t.lfNum) (v : V) :
    SetKeyValueFuel (fuel + 1) t k v =
      { ResizeFuel fuel t (t.size * 2) with
          m_aBuckets := (ResizeFuel fuel t (t.size * 2)).m_aBuckets.set
            ((ResizeFuel fuel t (t.size * 2)).FindBucket k)
            ((ResizeFuel fuel t (t.size * 2)).bucketAt
              ((ResizeFuel fuel t (t.size * 2)).FindBucket k) ++ [(k, v)]),
          m_iNumEntries :=
            (ResizeFuel fuel t (t.size * 2)).m_iNumEntries + 1 } := by
  simp only [SetKeyValueFuel, ResizeFuel, hfp, if_pos hload]

omit [DecidableEq K] in
theorem fresh_placed (t : CHashTable K V) (ns : Nat) :
    ({ t with m_aBuckets := List.replicate ns [], m_iNumEntries := 0 }
      : CHashTable K V).Placed := by
  rw [placed_iff]
  intro i q hq
  have hb : ({ t with
      m_aBuckets := List.replicate ns [], m_iNumEntries := 0 }
      : CHashTable K V).bucketAt i = [] := by
    unfold bucketAt
    exact getD_replicate_nil
  rw [hb] at hq
  simp at hq

theorem foldlSet_fields (fuel : Nat)
    (hS : ∀ (t : CHashTable K V) (k : K) (v : V),
      (SetKeyValueFuel fuel t k v).m_kpfHashFunction = t.m_kpfHashFunction ∧
      (SetKeyValueFuel fuel t k v).lfNum = t.lfNum ∧
      (SetKeyValueFuel fuel t k v).lfDen = t.lfDen) :
    ∀ (l : List (K × V)) (acc : CHashTable K V),
      (l.foldl (fun a p => SetKeyValueFuel fuel a p.1 p.2)
        acc).m_kpfHashFunction = acc.m_kpfHashFunction ∧
      (l.foldl (fun a p => SetKeyValueFuel fuel a p.1 p.2) acc).lfNum
        = acc.lfNum ∧
      (l.foldl (fun a p => SetKeyValueFuel fuel a p.1 p.2) acc).lfDen
        = acc.lfDen := by
  intro l
  induction l with
  | nil => intro acc; exact ⟨rfl, rfl, rfl⟩
  | cons p l ih =>
      intro acc
      rw [List.foldl_cons]
      obtain ⟨a1, a2, a3⟩ := ih (SetKeyValueFuel fuel acc p.1 p.2)
      obtain ⟨b1, b2, b3⟩ := hS acc p.1 p.2
      exact ⟨a1.trans b1, a2.trans b2, a3.trans b3⟩

theorem setKeyValueFuel_fields :
    ∀ (fuel : Nat) (t : CHashTable K V) (k : K) (v : V),
      (SetKeyValueFuel fuel t k v).m_kpfHashFunction = t.m_kpfHashFunction ∧
      (SetKeyValueFuel fuel t k v).lfNum = t.lfNum ∧
      (SetKeyValueFuel fuel t k v).lfDen = t.lfDen := by
  intro fuel
  induction fuel with
  | zero =>
      intro t k v
      rw [setKeyValueFuel_zero_eq]
      exact ⟨rfl, rfl, rfl⟩
  | succ fuel ih =>
      intro t k v
      cases hfp : FindKeyValuePair k (t.bucketAt (t.FindBucket k)) with
      | some p =>
          rw [setKeyValueFuel_found_eq fuel hfp v]
          exact insertPair_fields t k v
      | none =>
          by_cases hload : t.m_iNumEntries * t.lfDen > t.size * t.lfNum
          · rw [setKeyValueFuel_none_fire_eq fuel hfp hload v]
            obtain ⟨a1, a2, a3⟩ := foldlSet_fields fuel ih
              t.m_aBuckets.flatten
              { t with
                  m_aBuckets := List.replicate (t.size * 2) [],
                  m_iNumEntries := 0 }
            exact ⟨a1, a2, a3⟩
          · rw [setKeyValueFuel_nofire fuel t k v hload]
            exact insertPair_fields t k v

theorem resizeFuel_fields (fuel : Nat) (t : CHashTable K V) (ns : Nat) :
    (ResizeFuel fuel t ns).m_kpfHashFunction = t.m_kpfHashFunction ∧
    (ResizeFuel fuel t ns).lfNum = t.lfNum ∧
    (ResizeFuel fuel t ns).lfDen = t.lfDen := by
  obtain ⟨a1, a2, a3⟩ := foldlSet_fields fuel (setKeyValueFuel_fields fuel)
    t.m_aBuckets.flatten
    { t with m_aBuckets := List.replicate ns [], m_iNumEntries := 0 }
  exact ⟨a1, a2, a3⟩

theorem foldlSet_size (fuel : Nat)
    (hS : ∀ (t : CHashTable K V) (k : K) (v : V),
      ∃ j, (SetKeyValueFuel fuel t k v).size = t.size * 2 ^ j) :
    ∀ (l : List (K × V)) (acc : CHashTable K V),
      ∃ j, (l.foldl (fun a p => SetKeyValueFuel fuel a p.1 p.2) acc).size
        = acc.size * 2 ^ j := by
  intro l
  induction l with
  | nil =>
      intro acc
      refine ⟨0, ?_⟩
      simp
  | cons p l ih =>
      intro acc
      rw [List.foldl_cons]
      obtain ⟨j1, h1⟩ := hS acc p.1 p.2
      obtain ⟨j2, h2⟩ := ih (SetKeyValueFuel fuel acc p.1 p.2)
      refine ⟨j1 + j2, ?_⟩
      rw [h2, h1, pow_add]
      ring

theorem setKeyValueFuel_size :
    ∀ (fuel : Nat) (t : CHashTable K V) (k : K) (v : V),
      ∃ j, (SetKeyValueFuel fuel t k v).size = t.size * 2 ^ j := by
  intro fuel
  induction fuel with
  | zero =>
      intro t k v
      refine ⟨0, ?_⟩
      rw [setKeyValueFuel_zero_eq]
      simp
  | succ fuel ih =>
      intro t k v
      cases hfp : FindKeyValuePair k (t.bucketAt (t.FindBucket k)) with
      | some p =>
          refine ⟨0, ?_⟩
          rw [setKeyValueFuel_found_eq fuel hfp v, insertPair_size]
          simp
      | none =>
          by_cases hload : t.m_iNumEntries * t.lfDen > t.size * t.lfNum
          · obtain ⟨j, hj⟩ := foldlSet_size fuel ih t.m_aBuckets.flatten
              { t with
                  m_aBuckets := List.replicate (t.size * 2) [],
                  m_iNumEntries := 0 }
            refine ⟨j + 1, ?_⟩
            rw [setKeyValueFuel_none_fire_eq fuel hfp hload v]
            show ((ResizeFuel fuel t (t.size * 2)).m_aBuckets.set _ _).length
              = t.size * 2 ^ (j + 1)
            rw [List.length_set]
            have hlen : (ResizeFuel fuel t (t.size * 2)).m_aBuckets.length
                = (List.replicate (t.size * 2)
                    ([] : List (K × V))).length * 2 ^ j := hj
            rw [hlen, List.length_replicate]
            ring
          · refine ⟨0, ?_⟩
            rw [setKeyValueFuel_nofire fuel t k v hload, insertPair_size]
            simp

theorem resizeFuel_size (fuel : Nat) (t : CHashTable K V) (ns : Nat) :
    ∃ j, (ResizeFuel fuel t ns).size = ns * 2 ^ j := by
  obtain ⟨j, hj⟩ := foldlSet_size fuel (setKeyValueFuel_size fuel)
    t.m_aBuckets.flatten
    { t with m_aBuckets := List.replicate ns [], m_iNumEntries := 0 }
  refine ⟨j, ?_⟩
  rw [ResizeFuel, hj]
  show (List.replicate ns ([] : List (K × V))).length * 2 ^ j = ns * 2 ^ j
  rw [List.length_replicate]

theorem foldlSet_placed (fuel : Nat)
    (hS : ∀ (t : CHashTable K V) (k : K) (v : V), t.Placed →
      (SetKeyValueFuel fuel t k v).Placed) :
    ∀ (l : List (K × V)) (acc : CHashTable K V), acc.Placed →
      (l.foldl (fun a p => SetKeyValueFuel fuel a p.1 p.2) acc).Placed := by
  intro l
  induction l with
  | nil => intro acc hp; exact hp
  | cons p l ih =>
      intro acc hp
      rw [List.foldl_cons]
      exact ih (SetKeyValueFuel fuel acc p.1 p.2) (hS acc p.1 p.2 hp)

theorem setKeyValueFuel_placed :
    ∀ (fuel : Nat) (t : CHashTable K V) (k : K) (v : V), t.Placed →
      (SetKeyValueFuel fuel t k v).Placed := by
  intro fuel
  induction fuel with
  | zero =>
      intro t k v hp
      rw [setKeyValueFuel_zero_eq]
      exact hp
  | succ fuel ih =>
      intro t k v hp
      cases hfp : FindKeyValuePair k (t.bucketAt (t.FindBucket k)) with
      | some p =>
          rw [setKeyValueFuel_found_eq fuel hfp v]
          exact insertPair_placed t k v hp
      | none =>
          by_cases hload : t.m_iNumEntries * t.lfDen > t.size * t.lfNum
          · rw [setKeyValueFuel_none_fire_eq fuel hfp hload v]
            exact placed_set_append (ResizeFuel fuel t (t.size * 2)) k v _
              (foldlSet_placed fuel ih t.m_aBuckets.flatten _
                (fresh_placed t (t.size * 2)))
          · rw [setKeyValueFuel_nofire fuel t k v hload]
            exact insertPair_placed t k v hp

theorem resizeFuel_placed (fuel : Nat) (t : CHashTable K V) (ns : Nat) :
    (ResizeFuel fuel t ns).Placed :=
  foldlSet_placed fuel (setKeyValueFuel_placed fuel) t.m_aBuckets.flatten _
    (fresh_placed t ns)

/-! ### The public `SetKeyValue` and `Resize` -/

theorem setKeyValue_found_eq {t : CHashTable K V} {k : K} {p : K × V}
    (hfp : FindKeyValuePair k (t.bucketAt (t.FindBucket k)) = some p)
    (v : V) : t.SetKeyValue k v = t.insertPair k v :=
  setKeyValueFuel_found_eq (t.m_aBuckets.flatten.length * t.lfDen + 2) hfp v

theorem setKeyValue_nofire_eq (t : CHashTable K V) (k : K) (v : V)
    (hload : ¬ t.m_iNumEntries * t.lfDen > t.size * t.lfNum) :
    t.SetKeyValue k v = t.insertPair k v :=
  setKeyValueFuel_nofire (t.m_aBuckets.flatten.length * t.lfDen + 2)
    t k v hload

theorem setKeyValue_none_load_eq {t : CHashTable K V} {k : K}
    (hfp : FindKeyValuePair k (t.bucketAt (t.FindBucket k)) = none)
    (hload : t.m_iNumEntries * t.lfDen > t.size * t.lfNum) (v : V) :
    t.SetKeyValue k v =
      { t.Resize (t.size * 2) with
          m_aBuckets := (t.Resize (t.size * 2)).m_aBuckets.set
            ((t.Resize (t.size * 2)).FindBucket k)
            ((t.Resize (t.size * 2)).bucketAt
              ((t.Resize (t.size * 2)).FindBucket k) ++ [(k, v)]),
          m_iNumEntries := (t.Resize (t.size * 2)).m_iNumEntries + 1 } :=
  setKeyValueFuel_none_fire_eq (t.m_aBuckets.flatten.length * t.lfDen + 2)
    hfp hload v

theorem resize_placed (t : CHashTable K V) (ns : Nat) :
    (t.Resize ns).Placed :=
  resizeFuel_placed _ t ns

theorem resize_fields (t : CHashTable K V) (ns : Nat) :
    (t.Resize ns).m_kpfHashFunction = t.m_kpfHashFunction ∧
    (t.Resize ns).lfNum = t.lfNum ∧
    (t.Resize ns).lfDen = t.lfDen :=
  resizeFuel_fields _ t ns

theorem resize_size_pow (t : CHashTable K V) (ns : Nat) :
    ∃ j, (t.Resize ns).size = ns * 2 ^ j :=
  resizeFuel_size _ t ns

theorem setKeyValue_size_pow (t : CHashTable K V) (k : K) (v : V) :
    ∃ j, (t.SetKeyValue k v).size = t.size * 2 ^ j :=
  setKeyValueFuel_size _ t k v

theorem setKeyValue_fields (t : CHashTable K V) (k : K) (v : V) :
    (t.SetKeyValue k v).m_kpfHashFunction = t.m_kpfHashFunction ∧
    (t.SetKeyValue k v).lfNum = t.lfNum ∧
    (t.SetKeyValue k v).lfDen = t.lfDen :=
  setKeyValueFuel_fields _ t k v

theorem setKeyValue_size_le (t : CHashTable K V) (k : K) (v : V) :
    t.size ≤ (t.SetKeyValue k v).size := by
  obtain ⟨j, hj⟩ := setKeyValue_size_pow t k v
  rw [hj]
  exact Nat.le_mul_of_pos_right _ (Nat.two_pow_pos j)

theorem setKeyValue_placed (t : CHashTable K V) (k : K) (v : V)
    (hp : t.Placed) : (t.SetKeyValue k v).Placed :=
  setKeyValueFuel_placed _ t k v hp

theorem applyOp_size_le (t : CHashTable K V) (op : TOp K V) :
    t.size ≤ (applyOp t op).size := by
  cases op with
  | setKV k v =>
      simp only [applyOp]
      exact setKeyValue_size_le t k v
  | removeK k =>
      simp only [applyOp]
      rw [removeKey_size]
  | removeAll =>
      simp only [applyOp]
      rw [(removeAllKeys_spec t).1]

theorem runOps_size_le (t : CHashTable K V) (ops : List (TOp K V)) :
    t.size ≤ (runOps t ops).size := by
  induction ops generalizing t with
  | nil => exact Nat.le_refl _
  | cons op ops ih =>
      exact Nat.le_trans (applyOp_size_le t op) (ih (applyOp t op))

theorem applyOp_placed (t : CHashTable K V) (op : TOp K V)
    (hp : t.Placed) : (applyOp t op).Placed := by
  cases op with
  | setKV k v => exact setKeyValue_placed t k v hp
  | removeK k => exact removeKey_placed t k hp
  | removeAll => exact (removeAllKeys_spec t).2.2.2.2.1

theorem runOps_placed (t : CHashTable K V) (ops : List (TOp K V))
    (hp : t.Placed) : (runOps t ops).Placed := by
  induction ops generalizing t with
  | nil => exact hp
  | cons op ops ih => exact ih (applyOp t op) (applyOp_placed t op hp)

/-! ### Transfer: the faithful functions agree with the no-retrigger model
under the load invariant `LoadOK` -/

theorem foldlSet_eq_insertPair (fuel : Nat) :
    ∀ (l : List (K × V)) (acc : CHashTable K V),
      (acc.m_iNumEntries + l.length) * acc.lfDen
        ≤ acc.size * acc.lfNum + acc.lfDen →
      l.foldl (fun a p => SetKeyValueFuel (fuel + 1) a p.1 p.2) acc
        = l.foldl (fun a p => a.insertPair p.1 p.2) acc := by
  intro l
  induction l with
  | nil => intro acc _; rfl
  | cons p l ih =>
      intro acc H
      simp only [List.length_cons] at H
      have hexp : (acc.m_iNumEntries + (l.length + 1)) * acc.lfDen
          = acc.m_iNumEntries * acc.lfDen + l.length * acc.lfDen
            + acc.lfDen := by ring
      have hnof : ¬ acc.m_iNumEntries * acc.lfDen
          > acc.size * acc.lfNum := by
        intro hgt
        omega
      rw [List.foldl_cons, List.foldl_cons,
        setKeyValueFuel_nofire fuel acc p.1 p.2 hnof]
      apply ih
      obtain ⟨hf1, hf2, hf3⟩ := insertPair_fields acc p.1 p.2
      have hn' := insertPair_numEntries_le acc p.1 p.2
      have hs' := insertPair_size acc p.1 p.2
      rw [hf2, hf3, hs']
      have hmul : ((acc.insertPair p.1 p.2).m_iNumEntries + l.length)
            * acc.lfDen
          ≤ (acc.m_iNumEntries + (l.length + 1)) * acc.lfDen :=
        Nat.mul_le_mul_right _ (by omega)
      omega

theorem resizeFuel_eq_resizeNR (fuel : Nat) (t : CHashTable K V) (ns : Nat)
    (h : t.contents.length * t.lfDen ≤ ns * t.lfNum + t.lfDen) :
    ResizeFuel (fuel + 1) t ns = t.resizeNR ns := by
  rw [ResizeFuel, resizeNR_eq]
  have hH : (({ t with
          m_aBuckets := List.replicate ns [], m_iNumEntries := 0 }
          : CHashTable K V).m_iNumEntries + t.contents.length)
        * ({ t with
          m_aBuckets := List.replicate ns [], m_iNumEntries := 0 }
          : CHashTable K V).lfDen
      ≤ ({ t with
          m_aBuckets := List.replicate ns [], m_iNumEntries := 0 }
          : CHashTable K V).size
          * ({ t with
            m_aBuckets := List.replicate ns [], m_iNumEntries := 0 }
            : CHashTable K V).lfNum
        + ({ t with
          m_aBuckets := List.replicate ns [], m_iNumEntries := 0 }
          : CHashTable K V).lfDen := by
    show (0 + t.contents.length) * t.lfDen
      ≤ (List.replicate ns ([] : List (K × V))).length * t.lfNum + t.lfDen
    rw [Nat.zero_add, List.length_replicate]
    exact h
  exact foldlSet_eq_insertPair fuel t.contents _ hH

theorem setKeyValue_eq_NR (t : CHashTable K V) (k : K) (v : V)
    (hlo : t.LoadOK) : t.SetKeyValue k v = t.setKeyValueNR k v := by
  obtain ⟨h1, h2, h3⟩ := hlo
  cases hfp : FindKeyValuePair k (t.bucketAt (t.FindBucket k)) with
  | some p =>
      rw [setKeyValue_found_eq hfp v, setKeyValueNR_eq_insertPair_found hfp v]
  | none =>
      by_cases hload : t.m_iNumEntries * t.lfDen > t.size * t.lfNum
      · have hkey : t.contents.length * t.lfDen
            ≤ t.size * 2 * t.lfNum + t.lfDen := by
          have ha : t.contents.length * t.lfDen
              ≤ t.m_iNumEntries * t.lfDen :=
            Nat.mul_le_mul_right _ h1
          have hb : t.size * 2 * t.lfNum = 2 * (t.size * t.lfNum) := by ring
          omega
        have hres : t.Resize (t.size * 2) = t.resizeNR (t.size * 2) := by
          show ResizeFuel (t.m_aBuckets.flatten.length * t.lfDen + 2) t
            (t.size * 2) = t.resizeNR (t.size * 2)
          have hsplit : t.m_aBuckets.flatten.length * t.lfDen + 2
              = (t.m_aBuckets.flatten.length * t.lfDen + 1) + 1 := rfl
          rw [hsplit]
          exact resizeFuel_eq_resizeNR
            (t.m_aBuckets.flatten.length * t.lfDen + 1) t (t.size * 2) hkey
        rw [setKeyValue_none_load_eq hfp hload v,
          setKeyValueNR_none_load_eq hfp hload v, hres]
      · rw [setKeyValue_nofire_eq t k v hload,
          setKeyValueNR_eq_insertPair_noresize hfp hload v]

theorem applyOpNR_loadOK (t : CHashTable K V) (op : TOp K V)
    (hlo : t.LoadOK) : (applyOpNR t op).LoadOK := by
  obtain ⟨h1, h2, h3⟩ := hlo
  obtain ⟨ha, hb, hc, hd, he⟩ := applyOpNR_inv t op h1 h2 h3
  refine ⟨hc, ?_, ?_⟩
  · rw [ha, hb]
    exact hd
  · rw [ha, hb]
    exact he

theorem setKeyValueNR_loadOK (t : CHashTable K V) (k : K) (v : V)
    (hlo : t.LoadOK) : (t.setKeyValueNR k v).LoadOK :=
  applyOpNR_loadOK t (TOp.setKV k v) hlo

theorem applyOp_eq_NR (t : CHashTable K V) (op : TOp K V)
    (hlo : t.LoadOK) : applyOp t op = applyOpNR t op := by
  cases op with
  | setKV k v =>
      simp only [applyOp, applyOpNR]
      exact setKeyValue_eq_NR t k v hlo
  | removeK k => rfl
  | removeAll => rfl

theorem runOps_eq_NR (t : CHashTable K V) (ops : List (TOp K V))
    (hlo : t.LoadOK) : runOps t ops = runOpsNR t ops := by
  induction ops generalizing t with
  | nil => rfl
  | cons op ops ih =>
      show runOps (applyOp t op) ops = runOpsNR (applyOpNR t op) ops
      rw [applyOp_eq_NR t op hlo]
      exact ih (applyOpNR t op) (applyOpNR_loadOK t op hlo)

theorem insertList_eq_NR (l : List (K × V)) (t : CHashTable K V)
    (hlo : t.LoadOK) : insertList l t = insertListNR l t := by
  induction l generalizing t with
  | nil => rfl
  | cons p l ih =>
      show insertList l (t.SetKeyValue p.1 p.2)
        = insertListNR l (t.setKeyValueNR p.1 p.2)
      rw [setKeyValue_eq_NR t p.1 p.2 hlo]
      exact ih (t.setKeyValueNR p.1 p.2) (setKeyValueNR_loadOK t p.1 p.2 hlo)

omit [DecidableEq K] in
theorem create_loadOK (S : Nat) (hf : K → Nat) (m d : Nat)
    (hgood : d ≤ 2 * (S * m)) :
    (create S hf m d : CHashTable K V).LoadOK := by
  obtain ⟨hsz, hn0, hc0, hk0, hpl, hm, hd2, hhf⟩ :=
    create_spec (V := V) S hf m d
  refine ⟨?_, ?_, ?_⟩
  · rw [hc0, hn0]
    simp
  · rw [hn0]
    simp
  · rw [hd2, hm, hsz]
    exact hgood

end CHashTable

/-! ## Hash-function lemmas -/

theorem foldl_u32_add (l : List Nat) : ∀ a : Nat,
    l.foldl (fun iHash b => u32 (iHash + b)) (u32 a) = u32 (a + l.sum) := by
  induction l with
  | nil => intro a; simp [u32]
  | cons b l ih =>
      intro a
      rw [List.foldl_cons]
      have h1 : u32 (u32 a + b) = u32 (a + b) := by
        unfold u32
        omega
      rw [h1, ih (a + b)]
      simp only [List.sum_cons]
      unfold u32
      omega

theorem jStep_eq (h b : Nat) : jStep h b = jStep_ref h b := by
  simp only [jStep, jStep_ref, u32]
  have h10 : (2 : Nat) ^ 10 = 1024 := by norm_num
  have h6 : (2 : Nat) ^ 6 = 64 := by norm_num
  rw [Nat.shiftLeft_eq, Nat.shiftRight_eq_div_pow, h10, h6]
  have hmod : ∀ x : Nat, (x + x * 1024 % 4294967296) % 4294967296
      = (x + x * 1024) % 4294967296 := fun x => by omega
  rw [hmod]

theorem jFinal_eq (h : Nat) : jFinal h = jFinal_ref h := by
  simp only [jFinal, jFinal_ref, u32]
  have h3 : (2 : Nat) ^ 3 = 8 := by norm_num
  have h11 : (2 : Nat) ^ 11 = 2048 := by norm_num
  have h15 : (2 : Nat) ^ 15 = 32768 := by norm_num
  rw [Nat.shiftLeft_eq, Nat.shiftLeft_eq, Nat.shiftRight_eq_div_pow,
    h3, h11, h15]
  have hmod : ∀ x : Nat, (x + x * 8 % 4294967296) % 4294967296
      = (x + x * 8) % 4294967296 := fun x => by omega
  rw [hmod]

theorem jFinal_lt (x : Nat) : jFinal x < 4294967296 := by
  unfold jFinal u32
  exact Nat.mod_lt _ (by norm_num)

/-! ## The claims -/

namespace CHashTable

/-- C1: for every key `k` and values `v`, `v1`, `v2` (over any well-formed
table satisfying the load invariant — both hold for every table operated
from the constructor with threshold at least `1/2`): `SetKeyValue(k,v)`
followed by `LookUpKey(k)` finds `v`; `SetKeyValue(k,v1)` then
`SetKeyValue(k,v2)` leaves exactly one entry for `k`, `LookUpKey(k)`
returns `v2`, and the entry count is unchanged by the second call. -/
theorem setKeyValue_roundtrip_and_update {K V : Type} [DecidableEq K]
    (t : CHashTable K V) (k : K) (v v1 v2 : V) (hwf : t.WF)
    (hlo : t.LoadOK) :
    (t.SetKeyValue k v).LookUpKey k = some v ∧
    ((t.SetKeyValue k v1).SetKeyValue k v2).countKey k = 1 ∧
    ((t.SetKeyValue k v1).SetKeyValue k v2).LookUpKey k = some v2 ∧
    ((t.SetKeyValue k v1).SetKeyValue k v2).m_iNumEntries
      = (t.SetKeyValue k v1).m_iNumEntries := by
  have e := setKeyValue_eq_NR t k v hlo
  have e1 := setKeyValue_eq_NR t k v1 hlo
  have hlo1 : (t.setKeyValueNR k v1).LoadOK := setKeyValueNR_loadOK t k v1 hlo
  have e2 := setKeyValue_eq_NR (t.setKeyValueNR k v1) k v2 hlo1
  have hwf1 := setKeyValueNR_WF t k v1 hwf
  rw [e, e1, e2]
  exact ⟨lookUpKey_setKeyValueNR_self t k v hwf,
    countKey_setKeyValueNR_self _ k v2 hwf1,
    lookUpKey_setKeyValueNR_self _ k v2 hwf1,
    numEntries_setKeyValueNR_present _ k v2 hwf1
      ((mem_keys_setKeyValueNR t k k v1 hwf).2 (Or.inr rfl))⟩

/-- Witness for C1 on a concrete table. -/
theorem setKeyValue_roundtrip_and_update_witness :
    (witnessTable.WF ∧ witnessTable.LoadOK) ∧
    ((witnessTable.SetKeyValue 5 50).LookUpKey 5 = some 50 ∧
      ((witnessTable.SetKeyValue 5 7).SetKeyValue 5 8).countKey 5 = 1 ∧
      ((witnessTable.SetKeyValue 5 7).SetKeyValue 5 8).LookUpKey 5 = some 8 ∧
      ((witnessTable.SetKeyValue 5 7).SetKeyValue 5 8).m_iNumEntries
        = (witnessTable.SetKeyValue 5 7).m_iNumEntries) :=
  ⟨⟨by decide, by decide⟩,
    setKeyValue_roundtrip_and_update witnessTable 5 50 7 8 (by decide)
      (by decide)⟩

/-- C2: the code contradicts the claim. After inserting keys `1..3` into a
fresh `initialSize = 4`, load-factor `0.7` table, `RemoveAllKeys` empties
every bucket (all previously inserted keys become not-found) and preserves
`Size`, but it leaves `m_iNumEntries = 3` instead of resetting it to `0`,
so the next `SetKeyValue` sees `3 > 4 * 0.7` and spuriously doubles the
bucket count to 8 — not "as if the table were freshly constructed". -/
theorem removeAllKeys_stale_numEntries_bug :
    boundaryTable.m_iNumEntries = 3 ∧
    boundaryTable.size = 4 ∧
    boundaryTable.RemoveAllKeys.contents = ([] : List (Nat × Nat)) ∧
    boundaryTable.RemoveAllKeys.LookUpKey 1 = none ∧
    boundaryTable.RemoveAllKeys.LookUpKey 2 = none ∧
    boundaryTable.RemoveAllKeys.LookUpKey 3 = none ∧
    boundaryTable.RemoveAllKeys.size = 4 ∧
    boundaryTable.RemoveAllKeys.m_iNumEntries = 3 ∧
    (boundaryTable.RemoveAllKeys.SetKeyValue 4 40).size = 8 := by decide

/-- C3 counterexample: inserting `N = 3` distinct keys into a fresh
`initialSize = 4`, load-factor `0.7` table exceeds `S * L = 2.8`
(`3 * 10 > 4 * 7`), yet no resize has happened: the size is still 4. -/
theorem growth_trigger_boundary_counterexample :
    boundaryTable.m_iNumEntries * boundaryTable.lfDen
      > boundaryTable.size * boundaryTable.lfNum ∧
    boundaryTable.size = 4 ∧
    boundaryTable.m_iNumEntries = 3 := by decide

/-- C3 (amended): provided the constructed threshold `S * L` is at least
`1/2` (`d ≤ 2 * S * m`, satisfied by every realistic load factor),
inserting `N` distinct keys resizes at least once when `N` exceeds
`S * L + 1` (not `S * L`: the check uses the pre-insertion count, so the
boundary value `N = ⌈S*L⌉` causes no resize); all `N` keys stay
retrievable; and the concrete scenario holds: `initialSize = 4`, load
factor `0.7`, one-at-a-time hash, keys `1..10` mapped to `key * 10` give
size 16 (doubled twice), `LookUpKey 7 = 70`, `RemoveKey 3` succeeds then
fails, and the final entry count is 9. -/
theorem growth_trigger_amended_and_scenario {K V : Type} [DecidableEq K]
    (S : Nat) (hf : K → Nat) (m d : Nat) (l : List (K × V))
    (hS : 0 < S) (hgood : d ≤ 2 * (S * m))
    (hnd : (l.map Prod.fst).Nodup) :
    (l.length * d > S * m + d →
      S < (insertList l (create S hf m d)).size) ∧
    (∀ p ∈ l, (insertList l (create S hf m d)).LookUpKey p.1 = some p.2) ∧
    scenarioTable.size = 16 ∧
    scenarioTable.LookUpKey 7 = some 70 ∧
    (scenarioTable.RemoveKey 3).1 = true ∧
    ((scenarioTable.RemoveKey 3).2.RemoveKey 3).1 = false ∧
    (scenarioTable.RemoveKey 3).2.m_iNumEntries = 9 := by
  have hlo := create_loadOK (V := V) S hf m d hgood
  rw [insertList_eq_NR l (create S hf m d) hlo]
  obtain ⟨hsz, hn0, hc0, hk0, hpl, hm, hd2, hhf⟩ :=
    create_spec (V := V) S hf m d
  have hwf := create_WF (V := V) S hf m d hS
  obtain ⟨iwf, inum, icnt, ilook, iother, ikeys, isz, ibound⟩ :=
    insertListNR_spec l (create S hf m d) hwf (by rw [hn0, hc0]; rfl)
      (by
        intro p hp hmem
        rw [hk0] at hmem
        simp at hmem) hnd
  refine ⟨?_, ilook, by decide, by decide, by decide, by decide, by decide⟩
  intro hgt
  have hne : l ≠ [] := by
    intro h
    subst h
    simp only [List.length_nil, Nat.zero_mul] at hgt
    omega
  by_contra hle
  push_neg at hle
  have hszle : (insertListNR l (create S hf m d)).size ≤ S := hle
  rw [hsz] at isz
  have hszeq : (insertListNR l (create S hf m d)).size
      = (create S hf m d : CHashTable K V).size := by
    rw [hsz]
    omega
  have hb := ibound hne hszeq
  rw [inum, hn0, hm, hd2, hsz] at hb
  simp only [Nat.zero_add] at hb
  omega

/-- Witness for the generic part of C3: three fresh keys into a size-2
table with `3 * 10 > 2 * 7 + 10` force a resize. -/
theorem growth_trigger_amended_and_scenario_witness :
    (0 < 2 ∧ 10 ≤ 2 * (2 * 7) ∧
      (([((1 : Nat), (10 : Nat)), (2, 20), (3, 30)].map Prod.fst).Nodup) ∧
      [((1 : Nat), (10 : Nat)), (2, 20), (3, 30)].length * 10 > 2 * 7 + 10) ∧
    2 < (insertList [((1 : Nat), (10 : Nat)), (2, 20), (3, 30)]
      (create 2 hashNat 7 10)).size :=
  ⟨by decide,
    (growth_trigger_amended_and_scenario 2 hashNat 7 10
      [((1 : Nat), (10 : Nat)), (2, 20), (3, 30)] (by decide) (by decide)
      (by decide)).1 (by decide)⟩

/-- C4 counterexample: with `initialSize = 1` and `maxLoadFactor = 2/5`,
two fresh inserts leave `NumEntries = 2` and `Size = 2`, so the count
exceeds `Size * MaxLoadFactor = 0.8` by `1.2` — more than one insertion
(`2 * 5 > 2 * 2 + 5`). -/
theorem load_slack_counterexample :
    smallLoadTable.m_iNumEntries * smallLoadTable.lfDen
      > smallLoadTable.size * smallLoadTable.lfNum + smallLoadTable.lfDen := by
  decide

/-- C4 (amended): in `SetKeyValue` on an absent key the load check uses
the pre-insertion count; when it fires, the resize completes before the
new pair is placed — the size is doubled, then possibly doubled further
by resizes re-fired inside the replay, and the new pair lands in the
bucket of its hash modulo the *final* size; under the load invariant
(every table operated from a constructor with threshold at least `1/2`)
exactly one doubling happens; when the check does not fire the size is
unchanged and the count incremented.  Consequently — provided the initial
threshold `S * MaxLoadFactor` is at least `1/2` (`d ≤ 2 * S * m`) — after
every operation sequence the entry count exceeds `Size * MaxLoadFactor`
by at most one insertion (`NumEntries * lfDen ≤ Size * lfNum + lfDen`). -/
theorem load_factor_order_and_slack_amended {K V : Type} [DecidableEq K] :
    (∀ (t : CHashTable K V) (k : K) (v : V),
      FindKeyValuePair k (t.bucketAt (t.FindBucket k)) = none →
      t.m_iNumEntries * t.lfDen > t.size * t.lfNum →
      (∃ j, (t.SetKeyValue k v).size = t.size * 2 * 2 ^ j) ∧
      (0 < t.size →
        (k, v) ∈ (t.SetKeyValue k v).bucketAt
          (t.m_kpfHashFunction k % (t.SetKeyValue k v).size))) ∧
    (∀ (t : CHashTable K V) (k : K) (v : V),
      t.LoadOK →
      FindKeyValuePair k (t.bucketAt (t.FindBucket k)) = none →
      t.m_iNumEntries * t.lfDen > t.size * t.lfNum →
      (t.SetKeyValue k v).size = t.size * 2) ∧
    (∀ (t : CHashTable K V) (k : K) (v : V),
      FindKeyValuePair k (t.bucketAt (t.FindBucket k)) = none →
      ¬ t.m_iNumEntries * t.lfDen > t.size * t.lfNum →
      (t.SetKeyValue k v).size = t.size ∧
      (t.SetKeyValue k v).m_iNumEntries = t.m_iNumEntries + 1) ∧
    (∀ (S : Nat) (hf : K → Nat) (m d : Nat) (ops : List (TOp K V)),
      d ≤ 2 * (S * m) →
      (runOps (create S hf m d) ops).m_iNumEntries * d
        ≤ (runOps (create S hf m d) ops).size * m + d) := by
  refine ⟨?_, ?_, ?_, ?_⟩
  · intro t k v hfp hload
    constructor
    · obtain ⟨j, hj⟩ := resize_size_pow t (t.size * 2)
      refine ⟨j, ?_⟩
      rw [setKeyValue_none_load_eq hfp hload v]
      show ((t.Resize (t.size * 2)).m_aBuckets.set _ _).length
        = t.size * 2 * 2 ^ j
      rw [List.length_set]
      exact hj
    · intro h0
      obtain ⟨j, hRs⟩ := resize_size_pow t (t.size * 2)
      have hRhf : (t.Resize (t.size * 2)).m_kpfHashFunction
          = t.m_kpfHashFunction := (resize_fields t (t.size * 2)).1
      have h0R : 0 < (t.Resize (t.size * 2)).size := by
        rw [hRs]
        exact Nat.mul_pos (by omega) (Nat.two_pow_pos j)
      have hib : (t.Resize (t.size * 2)).FindBucket k
          < (t.Resize (t.size * 2)).m_aBuckets.length := findBucket_lt h0R k
      rw [setKeyValue_none_load_eq hfp hload v]
      show (k, v) ∈ ((t.Resize (t.size * 2)).m_aBuckets.set
          ((t.Resize (t.size * 2)).FindBucket k)
          ((t.Resize (t.size * 2)).bucketAt
            ((t.Resize (t.size * 2)).FindBucket k) ++ [(k, v)])).getD
          (t.m_kpfHashFunction k
            % ((t.Resize (t.size * 2)).m_aBuckets.set
              ((t.Resize (t.size * 2)).FindBucket k)
              ((t.Resize (t.size * 2)).bucketAt
                ((t.Resize (t.size * 2)).FindBucket k) ++ [(k, v)])).length) []
      rw [List.length_set]
      have hidx : t.m_kpfHashFunction k
            % (t.Resize (t.size * 2)).m_aBuckets.length
          = (t.Resize (t.size * 2)).FindBucket k := by
        show _ = (t.Resize (t.size * 2)).m_kpfHashFunction k
          % (t.Resize (t.size * 2)).size
        rw [hRhf]
        rfl
      rw [hidx, getD_set_self hib]
      simp
  · intro t k v hlo hfp hload
    rw [setKeyValue_eq_NR t k v hlo]
    exact setKeyValueNR_size_of_load hfp hload v
  · intro t k v hfp hload
    rw [setKeyValue_nofire_eq t k v hload]
    exact ⟨insertPair_size t k v, insertPair_none_numEntries hfp v⟩
  · intro S hf m d ops hgood
    have hlo := create_loadOK (V := V) S hf m d hgood
    rw [runOps_eq_NR (create S hf m d) ops hlo]
    obtain ⟨hsz, hn0, hc0, hk0, hpl, hm, hd2, hhf⟩ :=
      create_spec (V := V) S hf m d
    have hinv := runOpsNR_inv (create S hf m d : CHashTable K V) ops
      (by rw [hc0, hn0]; simp)
      (by rw [hn0]; simp)
      (by rw [hd2, hm, hsz]; exact hgood)
    obtain ⟨_, _, _, hbound, _⟩ := hinv
    rw [hm, hd2] at hbound
    exact hbound

/-- Witness for the invariant part of C4: `S = 1`, load factor `7/10`
(`10 ≤ 2 * (1 * 7)`), two inserts. -/
theorem load_factor_order_and_slack_amended_witness :
    (10 ≤ 2 * (1 * 7)) ∧
    (runOps (create 1 hashNat 7 10)
        [TOp.setKV 1 10, TOp.setKV 2 20]).m_iNumEntries * 10
      ≤ (runOps (create 1 hashNat 7 10)
        [TOp.setKV 1 10, TOp.setKV 2 20]).size * 7 + 10 :=
  ⟨by decide,
    (load_factor_order_and_slack_amended (K := Nat) (V := Nat)).2.2.2
      1 hashNat 7 10 [TOp.setKV 1 10, TOp.setKV 2 20] (by decide)⟩

/-- C5: `RemoveKey` on an absent key returns `false` and the table is
exactly unchanged (absence is reported only through the boolean result);
on a present key it erases exactly that one pair, decrements the entry
count, returns `true`, and no other key's lookup changes. -/
theorem removeKey_contract {K V : Type} [DecidableEq K]
    (t : CHashTable K V) (k : K) (hwf : t.WF) :
    (k ∉ t.keys → t.RemoveKey k = (false, t)) ∧
    (k ∈ t.keys →
      (t.RemoveKey k).1 = true ∧
      (t.RemoveKey k).2.m_iNumEntries = t.m_iNumEntries - 1 ∧
      (t.RemoveKey k).2.contents.length + 1 = t.contents.length ∧
      (∃ w, (k, w) ∈ t.contents ∧
        t.contents.Perm ((k, w) :: (t.RemoveKey k).2.contents)) ∧
      (t.RemoveKey k).2.countKey k = 0 ∧
      (t.RemoveKey k).2.LookUpKey k = none ∧
      (∀ k2, k2 ≠ k → (t.RemoveKey k).2.LookUpKey k2 = t.LookUpKey k2)) := by
  constructor
  · intro habs
    exact removeKey_absent t k hwf habs
  · intro hpres
    obtain ⟨htrue, ⟨w, hw, hperm⟩, hn, hsz, hwf', hknot, _, _, _⟩ :=
      removeKey_present t k hwf hpres
    obtain ⟨hnone, hother⟩ := removeKey_lookups t k hwf hpres
    refine ⟨htrue, hn, ?_, ⟨w, hw, hperm⟩, ?_, hnone, hother⟩
    · have := hperm.length_eq
      simp only [List.length_cons] at this
      omega
    · unfold countKey
      exact List.count_eq_zero_of_not_mem hknot

/-- Witness for C5 on a concrete table: key 3 is absent, key 1 present. -/
theorem removeKey_contract_witness :
    (witnessTable.WF ∧ (3 : Nat) ∉ witnessTable.keys ∧
      (1 : Nat) ∈ witnessTable.keys) ∧
    witnessTable.RemoveKey 3 = (false, witnessTable) ∧
    (witnessTable.RemoveKey 1).1 = true ∧
    (witnessTable.RemoveKey 1).2.m_iNumEntries
      = witnessTable.m_iNumEntries - 1 :=
  ⟨by decide,
    (removeKey_contract witnessTable 3 (by decide)).1 (by decide),
    ((removeKey_contract witnessTable 1 (by decide)).2 (by decide)).1,
    ((removeKey_contract witnessTable 1 (by decide)).2 (by decide)).2.1⟩

/-- C6: between operations every stored pair sits in the bucket given by
its hash modulo the current size, and `Resize` re-establishes this for
every entry regardless of the previous state. -/
theorem placement_invariant {K V : Type} [DecidableEq K] :
    (∀ (t : CHashTable K V) (ns : Nat) (i : Nat),
      ∀ p ∈ (t.Resize ns).bucketAt i,
        (t.Resize ns).m_kpfHashFunction p.1 % (t.Resize ns).size = i) ∧
    (∀ (S : Nat) (hf : K → Nat) (m d : Nat) (ops : List (TOp K V)) (i : Nat),
      ∀ p ∈ (runOps (create S hf m d) ops).bucketAt i,
        (runOps (create S hf m d) ops).m_kpfHashFunction p.1
          % (runOps (create S hf m d) ops).size = i) := by
  constructor
  · intro t ns i p hp
    exact (placed_iff.1 (resize_placed t ns)) i p hp
  · intro S hf m d ops i p hp
    exact (placed_iff.1 (runOps_placed _ ops
      (create_spec (V := V) S hf m d).2.2.2.2.1)) i p hp

/-- Witness for C6: the pair `(1, 11)` lives in bucket 2 of a concrete
table, which is its hash modulo the size. -/
theorem placement_invariant_witness :
    ((1, 11) ∈ (runOps (create 4 hashNat 7 10)
      [TOp.setKV 1 11, TOp.setKV 2 22]).bucketAt 2) ∧
    (runOps (create 4 hashNat 7 10)
      [TOp.setKV 1 11, TOp.setKV 2 22]).m_kpfHashFunction 1
      % (runOps (create 4 hashNat 7 10)
        [TOp.setKV 1 11, TOp.setKV 2 22]).size = 2 :=
  ⟨by decide,
    placement_invariant.2 4 hashNat 7 10 [TOp.setKV 1 11, TOp.setKV 2 22]
      2 (1, 11) (by decide)⟩

/-- C7: `Size` never decreases across any operation sequence; `RemoveKey`
and `RemoveAllKeys` never change it; and `SetKeyValue` multiplies it by a
power of two — by `2^0 = 1` (no resize) whenever the load check does not
fire, and otherwise by the doublings of the triggered resize and of any
resizes re-fired inside its replay. -/
theorem size_monotone {K V : Type} [DecidableEq K] :
    (∀ (t : CHashTable K V) (ops : List (TOp K V)),
      t.size ≤ (runOps t ops).size) ∧
    (∀ (t : CHashTable K V) (k : K) (v : V),
      ∃ j, (t.SetKeyValue k v).size = t.size * 2 ^ j) ∧
    (∀ (t : CHashTable K V) (k : K) (v : V),
      ¬ t.m_iNumEntries * t.lfDen > t.size * t.lfNum →
      (t.SetKeyValue k v).size = t.size) ∧
    (∀ (t : CHashTable K V) (k : K), (t.RemoveKey k).2.size = t.size) ∧
    (∀ t : CHashTable K V, t.RemoveAllKeys.size = t.size) :=
  ⟨fun t ops => runOps_size_le t ops,
   fun t k v => setKeyValue_size_pow t k v,
   fun t k v hload => by
     rw [setKeyValue_nofire_eq t k v hload]
     exact insertPair_size t k v,
   fun t k => removeKey_size t k,
   fun t => (removeAllKeys_spec t).1⟩

/-- Witness for C7: on a concrete table whose load check does not fire,
`SetKeyValue` keeps the size. -/
theorem size_monotone_witness :
    (¬ witnessTable.m_iNumEntries * witnessTable.lfDen
        > witnessTable.size * witnessTable.lfNum) ∧
    (witnessTable.SetKeyValue 9 90).size = witnessTable.size :=
  ⟨by decide,
    (size_monotone (K := Nat) (V := Nat)).2.2.1 witnessTable 9 90
      (by decide)⟩

/-- C9: `LookUpKey` never mutates the table — the returned table is the
argument itself, so buckets, size, entry count, hash function and load
factor are untouched — and the caller's value slot is written only on
success: on failure it keeps its prior contents, on success it holds the
found value. -/
theorem lookUpKey_pure {K V : Type} [DecidableEq K] (t : CHashTable K V)
    (k : K) (slot : V) :
    (t.LookUpKeyFull k slot).2.1 = t ∧
    ((t.LookUpKeyFull k slot).1 = false →
      (t.LookUpKeyFull k slot).2.2 = slot) ∧
    ((t.LookUpKeyFull k slot).1 = true →
      some (t.LookUpKeyFull k slot).2.2 = t.LookUpKey k) := by
  cases hfp : FindKeyValuePair k (t.bucketAt (t.FindBucket k)) with
  | none => simp [LookUpKeyFull, LookUpKey, hfp]
  | some p => simp [LookUpKeyFull, LookUpKey, hfp]

/-- Witness for C9: a failed lookup leaves the slot at its prior value. -/
theorem lookUpKey_pure_witness :
    (witnessTable.LookUpKeyFull 3 99).1 = false ∧
    (witnessTable.LookUpKeyFull 3 99).2.2 = 99 :=
  ⟨by decide, (lookUpKey_pure witnessTable 3 99).2.1 (by decide)⟩

/-- C10: with a positive initial size, the size stays positive across all
operations, and `FindBucket` always returns an index strictly below the
size, so every bucket access is in bounds and the modulo never divides by
zero. -/
theorem bucket_access_in_bounds {K V : Type} [DecidableEq K] :
    (∀ (t : CHashTable K V) (k : K), 0 < t.size → t.FindBucket k < t.size) ∧
    (∀ (S : Nat) (hf : K → Nat) (m d : Nat) (ops : List (TOp K V)),
      0 < S → 0 < (runOps (create S hf m d) ops).size) := by
  constructor
  · intro t k h0
    exact findBucket_lt h0 k
  · intro S hf m d ops hS
    have h1 := runOps_size_le (create S hf m d : CHashTable K V) ops
    have h2 : (create S hf m d : CHashTable K V).size = S :=
      (create_spec (V := V) S hf m d).1
    omega

/-- Witness for C10 on a concrete table and operation sequence. -/
theorem bucket_access_in_bounds_witness :
    (0 < witnessTable.size ∧ witnessTable.FindBucket 9 < witnessTable.size) ∧
    ((0 : Nat) < 4 ∧
      0 < (runOps (create 4 hashNat 7 10 : CHashTable Nat Nat)
        [TOp.removeAll]).size) :=
  ⟨⟨by decide, bucket_access_in_bounds.1 witnessTable 9 (by decide)⟩,
   ⟨by decide, bucket_access_in_bounds.2 4 hashNat 7 10 [TOp.removeAll]
     (by decide)⟩⟩

end CHashTable

/-- C8: the two hash functions equal their reference definitions as pure
functions over unsigned 32-bit arithmetic with wraparound: `AddUpHash` is
the mod-`2^32` sum of the key bytes, and `JOneAtATimeHash` is the
one-at-a-time mix-and-finalise sequence; both results fit in 32 bits. -/
theorem hash_functions_match_reference (key : List Nat) :
    AddUpHash key = AddUpHash_ref key ∧
    JOneAtATimeHash key = JOneAtATimeHash_ref key ∧
    AddUpHash key < 4294967296 ∧ JOneAtATimeHash key < 4294967296 := by
  have hadd : AddUpHash key = AddUpHash_ref key := by
    unfold AddUpHash AddUpHash_ref
    have h0 : (0 : Nat) = u32 0 := rfl
    rw [h0, foldl_u32_add key 0, Nat.zero_add]
    rfl
  have hstep : key.foldl jStep 0 = key.foldl jStep_ref 0 := by
    have h : jStep = jStep_ref := funext fun a => funext fun b => jStep_eq a b
    rw [h]
  have hj : JOneAtATimeHash key = JOneAtATimeHash_ref key := by
    unfold JOneAtATimeHash JOneAtATimeHash_ref
    rw [hstep, jFinal_eq]
  refine ⟨hadd, hj, ?_, ?_⟩
  · rw [hadd]
    unfold AddUpHash_ref
    exact Nat.mod_lt _ (by norm_num)
  · unfold JOneAtATimeHash
    exact jFinal_lt _

end Gen
